import Mathlib

/-!
Verification development for the `poetry-plugin-package-info` plugin
(`src/poetry_plugin_package_info/plugin.py`).

The Python source is shallowly embedded: pure functions become Lean
functions, the filesystem effects of the tar patcher become explicit
state passing over an association list of paths to modelled archives,
and fallible code returns `Except`/`Option`.  Python standard-library
behaviour that the source relies on (pathlib `suffixes`, `str.split`,
`str.replace`, `tarfile` member iteration and `extractfile`, `zipfile`
append, `set.add`, Python literal evaluation) is modelled explicitly,
each next to the definition that uses it.
-/

namespace PackageInfo

-- Decidable equality of `Except` results, for evaluating the embedded
-- fallible functions on concrete inputs.
deriving instance DecidableEq for Except

/-! ## Python string helpers

Character-list based models of the Python `str` operations used by the
plugin.  All definitions are structurally recursive so that concrete
instances reduce by `decide`/`rfl`. -/

/-- Model of Python `str.lstrip('.')`: drop every leading `'.'`. -/
def pyLstripDots (s : String) : String :=
  String.mk (s.data.dropWhile (fun c => c = '.'))

/-- Model of Python `name.split(sep)` for a one-character separator:
split at every occurrence, keeping empty pieces. -/
def splitOnChar (c : Char) : List Char → List (List Char)
  | [] => [[]]
  | x :: xs =>
    match splitOnChar c xs with
    | [] => [[]]
    | r :: rs => if x = c then [] :: r :: rs else (x :: r) :: rs

/-- First occurrence split: `some (before, after)` at the first `c`,
`none` when `c` does not occur.  Models `str.split(c, maxsplit=1)`. -/
def splitFirst (c : Char) : List Char → Option (List Char × List Char)
  | [] => none
  | x :: xs =>
    if x = c then some ([], xs)
    else (splitFirst c xs).map (fun p => (x :: p.1, p.2))

/-- Model of Python `item.split("-", maxsplit=1)`: a one-element list when
there is no dash, otherwise the part before the first dash and the rest. -/
def pySplit1Dash (s : String) : List String :=
  match splitFirst '-' s.data with
  | none => [s]
  | some (a, b) => [String.mk a, String.mk b]

/-- Model of Python `s.replace("-", "_")` (all occurrences). -/
def pyReplaceDash (s : String) : String :=
  String.mk (s.data.map (fun ch => if ch = '-' then '_' else ch))

/-! ## `pathlib.PurePath.name` and `.suffixes`

`get_compression` reads `filename.suffixes`.  CPython (`pathlib`)
computes the suffixes of the final path component as: empty when the
name ends with a dot, otherwise `'.' + part` for every part after the
first of `name.lstrip('.').split('.')`. -/

/-- The final component of a path string (text after the last `/`). -/
def pathName (p : String) : String :=
  match (splitOnChar '/' p.data).getLast? with
  | some n => String.mk n
  | none => p

/-- Model of `pathlib.PurePath.suffixes`. -/
def pathSuffixes (p : String) : List String :=
  let name := pathName p
  if name.data.getLast? = some '.' then []
  else
    let base := name.data.dropWhile (fun c => c = '.')
    ((splitOnChar '.' base).drop 1).map (fun part => String.mk ('.' :: part))

/-! ## `get_compression` (plugin.py lines 928-951) -/

/-- Errors raised by `get_compression`: `valueError` models the
`ValueError` raised by unpacking `suffixes[-2:]` into two names when the
path has fewer than two suffixes; the other two model the function's own
`RuntimeError`s. -/
inductive CompressionError where
  | valueError
  | tooMuchSuffixes
  | unableToDetermine
deriving DecidableEq, Repr

/-- Embedding of `get_compression`.  Mirrors the source line by line:
take the last two suffixes, strip their dots into `tar` and
`compression`, then branch on `tgz` / `tar` / empty compression. -/
def get_compression (filename : String) : Except CompressionError String :=
  let suffixes := pathSuffixes filename
  match suffixes.drop (suffixes.length - 2) with
  | [s1, s2] =>
    let tar := pyLstripDots s1
    let compression := pyLstripDots s2
    if tar = "tgz" then
      if compression ≠ "" then .error .tooMuchSuffixes
      else .ok "gz"
    else if tar ≠ "tar" then .error .unableToDetermine
    else if compression = "" then .ok ""
    else .ok compression
  | _ => .error .valueError

/-! ## Patch-build-formats normalization (plugin.py lines 607-615) -/

/-- The shapes a `patch-build-formats` TOML value can take that the
normalization code distinguishes: a single string or a list of strings. -/
inductive PatchFormatsValue where
  | vstr (s : String)
  | vlist (xs : List String)
deriving DecidableEq, Repr

/-- Embedding of the `initialise` slice that resolves
`patch-build-formats`: `get_or_default(..., default=[])`, then if the
value is a string, the empty string becomes `[]` (Python truthiness) and
a non-empty string becomes a singleton list; lists are kept as-is. -/
def resolve_patch_build_formats (raw : Option PatchFormatsValue) : List String :=
  match raw.getD (.vlist []) with
  | .vstr s => if s = "" then [] else [s]
  | .vlist xs => xs

/-! ## Wheel (zip) patching (plugin.py lines 861-866)

`update_wheel` opens the existing wheel with
`zipfile.ZipFile(..., mode="a", compression=zipfile.ZIP_DEFLATED)` and
calls `writestr(entry_name, data)`.  In append mode `writestr`
unconditionally adds a new central-directory entry at the end, even if
an entry with the same name already exists. -/

inductive ZipCompression where
  | stored
  | deflated
deriving DecidableEq, Repr

structure ZipEntry where
  name : String
  data : String
  compression : ZipCompression
deriving DecidableEq, Repr

/-- Embedding of the archive effect of `update_wheel`: append one entry
written with deflate compression under the configured relative path. -/
def update_wheel_archive (entries : List ZipEntry) (entry_name : String)
    (data : String) : List ZipEntry :=
  entries ++ [⟨entry_name, data, .deflated⟩]

/-! ## Property-request parsing (plugin.py lines 509-571)

`parse_include_property_configs` walks the configured `properties` list.
A generator instance is modelled by the one datum the parser reads from
it, its `short_name()`; the generator registry `self.generators` is an
association list queried with `dict.get` semantics. -/

/-- A loaded property generator; only `short_name()` is relevant here. -/
structure Generator where
  short_name : String
deriving DecidableEq, Repr

/-- Model of `self.generators.get(key, None)` on the registry. -/
def lookupGenerator (gens : List (String × Generator)) (k : String) :
    Option Generator :=
  match gens.find? (fun kv => kv.1 = k) with
  | some kv => some kv.2
  | none => none

/-- Free-form metadata mapping (opaque to the parser). -/
abbrev Metadata := List (String × String)

/-- Embedding of the `PropertyConfig` named tuple. -/
structure PropertyConfig where
  property_generator : Generator
  property_name : String
  variable_name : String
  metadata : Metadata
deriving DecidableEq, Repr

/-- The fields an expanded (inline-table) property request may carry;
`none` models an absent TOML key. -/
structure InlineTableItem where
  property_generator : Option String
  property_name : Option String
  variable_name : Option String
  metadata : Option Metadata
deriving DecidableEq, Repr

/-- One raw item of the `properties` configuration list: a compact
string, an expanded inline table, or any other TOML value (which the
source ignores with a bare `pass`). -/
inductive ConfigItem where
  | str (s : String)
  | table (t : InlineTableItem)
  | other
deriving DecidableEq, Repr

/-- Errors of the compact-string branch: `indexError` models the
`IndexError` from `item.split("-", maxsplit=1)[1]` when the string has
no dash, `valueError` the `raise ValueError` on an unknown generator. -/
inductive ParseError where
  | indexError
  | valueError
deriving DecidableEq, Repr

/-- Embedding of `parse_include_property_configs`.  The compact string
form is split at the first `-`; the generator is looked up from the part
before the dash, the property name is the remainder (raising
`IndexError` if there is no dash, `ValueError` if the generator key is
unknown), and the default variable name is
`short_name() + "_" + property_name.replace("-", "_")`.  An expanded
item missing its generator key or property name (or naming an unknown
generator) is skipped with `continue`; non-string non-table items are
skipped with `pass`. -/
def parse_include_property_configs (gens : List (String × Generator)) :
    List ConfigItem → Except ParseError (List PropertyConfig)
  | [] => .ok []
  | item :: rest =>
    match item with
    | .str s =>
      let parts := pySplit1Dash s
      let property_generator := lookupGenerator gens (parts.headD "")
      match parts[1]? with
      | none => .error .indexError
      | some property_name =>
        match property_generator with
        | none => .error .valueError
        | some g =>
          let variable_name :=
            g.short_name ++ "_" ++ pyReplaceDash property_name
          (parse_include_property_configs gens rest).map
            (fun tail => ⟨g, property_name, variable_name, []⟩ :: tail)
    | .table t =>
      let property_generator :=
        match t.property_generator with
        | some k => lookupGenerator gens k
        | none => none
      match t.property_name, property_generator with
      | some property_name, some g =>
        let variable_name :=
          match t.variable_name with
          | some v => v
          | none => g.short_name ++ "_" ++ pyReplaceDash property_name
        let metadata := t.metadata.getD []
        (parse_include_property_configs gens rest).map
          (fun tail => ⟨g, property_name, variable_name, metadata⟩ :: tail)
      | _, _ => parse_include_property_configs gens rest
    | .other => parse_include_property_configs gens rest

/-! ## Sdist (tar) patching (plugin.py lines 894-926)

`append_tar_file` is embedded over an explicit filesystem state: an
association list from path strings to modelled tar archives.  An archive
is its compression scheme plus its ordered member list; a member carries
its name, its content bytes, its recorded header size, and the remaining
header fields (`TarMeta`).  A fresh `tarfile.TarInfo(name)` has
`mtime=0, mode=0o644, uid=0, gid=0`, modelled by `defaultTarMeta`.
The scoped temporary directory leaves no filesystem trace and is not
modelled. -/

/-- Tar header fields other than name and size. -/
structure TarMeta where
  mtime : Nat
  mode : Nat
  uid : Nat
  gid : Nat
deriving DecidableEq, Repr

/-- Header fields of a freshly constructed `tarfile.TarInfo`. -/
def defaultTarMeta : TarMeta := ⟨0, 420, 0, 0⟩

/-- One tar archive member (regular file). -/
structure TarEntry where
  name : String
  data : List Nat
  size : Nat
  meta : TarMeta
deriving DecidableEq, Repr

/-- A tar archive: compression scheme (`""`, `"gz"`, `"bz2"`, `"xz"`,
as the string that follows `r:`/`w:` in the `tarfile` mode) and ordered
members. -/
structure TarArchive where
  compression : String
  entries : List TarEntry
deriving DecidableEq, Repr

/-- The filesystem slice relevant to the patcher: which paths hold which
archives. -/
abbrev FileSystem := List (String × TarArchive)

/-- Is there a file at `p` (`Path(p).is_file()`), and which archive. -/
def fsLookup : FileSystem → String → Option TarArchive
  | [], _ => none
  | (q, a) :: t, p => if q = p then some a else fsLookup t p

/-- `tmp_path.rename(tar_file_path)`: replace the archive stored at `p`. -/
def fsUpdate : FileSystem → String → TarArchive → FileSystem
  | [], _, _ => []
  | (q, a) :: t, p, v => if q = p then (p, v) :: t else (q, a) :: fsUpdate t p v

/-- Model of `tar.extractfile(name)` on a read archive: CPython's
`getmember` resolves a name to the LAST member bearing it ("its last
occurrence is assumed to be the most up-to-date version"). -/
def extract_file_data (ar : TarArchive) (n : String) : List Nat :=
  match (ar.entries.filter (fun e => e.name == n)).getLast? with
  | some e => e.data
  | none => []

/-- The archive written to the temporary path: every original member not
named `file_name`, keeping its header (`member`) but with its content
re-read by name (`tar.extractfile(member.name)`), followed by the new
entry whose `TarInfo` has the given name, fresh default header fields,
and `size = len(data_bytes)`. -/
def rebuild_archive (ar : TarArchive) (file_name : String)
    (data_bytes : List Nat) : TarArchive :=
  { compression := ar.compression
    entries :=
      ((ar.entries.filter (fun e => e.name != file_name)).map
        (fun m => { m with data := extract_file_data ar m.name })) ++
      [{ name := file_name, data := data_bytes, size := data_bytes.length,
         meta := defaultTarMeta }] }

/-- Compression suffixes `tarfile.open(path, "r:" + c)` accepts. -/
def readable_compressions : List String := ["", "gz", "bz2", "xz"]

/-- Failures of `append_tar_file`: a propagated `get_compression`
exception, or `tarfile.open` failing (unsupported scheme string or a
file whose actual compression does not match the requested one). -/
inductive TarPatchError where
  | compressionError (e : CompressionError)
  | readError
deriving DecidableEq, Repr

/-- Embedding of `append_tar_file`.  Mirrors the source: no-op when no
file exists at the path; resolve the compression from the path (its
errors propagate); open the archive (must match the resolved scheme);
no-op when `replace` is false and a member with the target name exists;
otherwise write the rebuilt archive to a temporary path and atomically
rename it over the original. -/
def append_tar_file (data_bytes : List Nat) (file_name : String)
    (tar_file_path : String) (replace : Bool) (fs : FileSystem) :
    Except TarPatchError FileSystem :=
  match fsLookup fs tar_file_path with
  | none => .ok fs
  | some tar =>
    match get_compression tar_file_path with
    | .error e => .error (.compressionError e)
    | .ok compression =>
      if readable_compressions.contains compression = true ∧
          tar.compression = compression then
        if replace = false ∧
            (tar.entries.map (fun m => m.name)).contains file_name = true then
          .ok fs
        else
          .ok (fsUpdate fs tar_file_path
            (rebuild_archive tar file_name data_bytes))
      else
        .error .readError

/-! ## Value formatting (`as_python`, plugin.py lines 86-103)

The template calls `as_python(property.property_value)` on runtime
values.  The value space is modelled by `PyVal`; Python `float` values
are outside the embedding (IEEE-754 shortest-repr formatting).  The
Python `str`/`repr` rendering that `as_python` falls back to is modelled
alongside. -/

/-- A naive `datetime` whose microseconds were already truncated to zero
by the caller (`now().replace(microsecond=0)`); time-zone-aware values
are not modelled. -/
structure PyDateTime where
  year : Nat
  month : Nat
  day : Nat
  hour : Nat
  minute : Nat
  second : Nat
deriving DecidableEq, Repr

/-- A Python `float`, as the value formatter observes it.  A finite
nonzero binary64 value is represented by its canonical shortest
round-trip decimal decomposition: sign, significand digits (leading and
trailing digit nonzero), and decimal exponent, denoting
`±0.d₁…dₖ·10^decpt`.  This is exactly the form CPython's `repr`/`str`
computes (the shortest digit string that reads back to the value), and
finite floats are in bijection with these decompositions; since the
formatter and the literal evaluator communicate exclusively through
this decimal form, the bit-level binary64 representation is not needed.
Signed zeros, infinities and NaN are separate cases (`str` renders the
latter two as `inf`/`nan`, which are not Python literals). -/
inductive PyFloat where
  | finite (neg : Bool) (digits : List Nat) (decpt : Int)
  | zero (neg : Bool)
  | inf (neg : Bool)
  | nan
deriving DecidableEq, Repr

/-- Runtime values reaching `as_python` from generated properties. -/
inductive PyVal where
  | none
  | bool (b : Bool)
  | int (n : Int)
  | float (f : PyFloat)
  | str (s : String)
  | dt (d : PyDateTime)
  | list (xs : List PyVal)

/-- The ten decimal digit characters. -/
def digitChar : Nat → Char
  | 0 => '0'
  | 1 => '1'
  | 2 => '2'
  | 3 => '3'
  | 4 => '4'
  | 5 => '5'
  | 6 => '6'
  | 7 => '7'
  | 8 => '8'
  | 9 => '9'
  | _ => '*'

/-- Decimal digits of a natural number, most significant first.  Fueled
structural recursion (fuel `n + 1` always suffices), so that concrete
values reduce inside the kernel. -/
def natDigitsAux : Nat → Nat → List Char
  | 0, _ => []
  | fuel + 1, n =>
    if n < 10 then [digitChar n]
    else natDigitsAux fuel (n / 10) ++ [digitChar (n % 10)]

/-- Decimal digits of `n`. -/
def natDigits (n : Nat) : List Char := natDigitsAux (n + 1) n

/-- Python `str(int)`: optional minus sign followed by decimal digits. -/
def intToDec (n : Int) : String :=
  if n < 0 then "-" ++ String.mk (natDigits n.natAbs)
  else String.mk (natDigits n.toNat)

/-- Zero-pad a decimal rendering to `k` digits (C `%0kd`). -/
def padDigits (k n : Nat) : String :=
  String.mk (List.replicate (k - (natDigits n).length) '0' ++ natDigits n)

/-- Python `datetime.isoformat(sep)` for microsecond-free naive values:
`YYYY-MM-DD`, the separator, `HH:MM:SS`. -/
def isoformatSep (sep : Char) (d : PyDateTime) : String :=
  padDigits 4 d.year ++ "-" ++ padDigits 2 d.month ++ "-" ++
    padDigits 2 d.day ++ String.mk [sep] ++ padDigits 2 d.hour ++ ":" ++
    padDigits 2 d.minute ++ ":" ++ padDigits 2 d.second

/-- `datetime.isoformat()` (separator `T`). -/
def isoformat (d : PyDateTime) : String := isoformatSep 'T' d

/-- Python `sep.join(pieces)`. -/
def pyJoin (sep : String) : List String → String
  | [] => ""
  | [x] => x
  | x :: y :: t => x ++ sep ++ pyJoin sep (y :: t)

/-- Lower-case hexadecimal digit characters. -/
def hexDigitChar : Nat → Char
  | 0 => '0'
  | 1 => '1'
  | 2 => '2'
  | 3 => '3'
  | 4 => '4'
  | 5 => '5'
  | 6 => '6'
  | 7 => '7'
  | 8 => '8'
  | 9 => '9'
  | 10 => 'a'
  | 11 => 'b'
  | 12 => 'c'
  | 13 => 'd'
  | 14 => 'e'
  | 15 => 'f'
  | _ => '*'

/-- The exponent suffix of a scientific float rendering: an explicit
sign and at least two digits (CPython prints `e%+.02d`), e.g. `+16`,
`-05`, `+308`. -/
def expChars (e : Int) : List Char :=
  (if e < 0 then ['-'] else ['+']) ++
    (if e.natAbs < 10 then ['0', digitChar e.natAbs] else natDigits e.natAbs)

/-- CPython's `format_float_short` for the `repr` format (`'r'` mode
with `Py_DTSF_ADD_DOT_0`), applied to the shortest-digits decomposition
`0.d₁…dₖ·10^decpt`: scientific notation `d₁[.d₂…dₖ]e±EE` when
`decpt ≤ -4` or `decpt > 16`; otherwise fixed notation — `0.` and
leading zeros for `decpt ≤ 0`, digits padded with zeros and `.0` for
`decpt ≥ k`, or the digits with an interior point. -/
def formatShort (digits : List Nat) (decpt : Int) : List Char :=
  if decpt ≤ -4 ∨ decpt > 16 then
    match digits with
    | [] => []
    | d :: ds =>
      digitChar d ::
        ((if ds.isEmpty then [] else '.' :: ds.map digitChar) ++
          'e' :: expChars (decpt - 1))
  else if decpt ≤ 0 then
    '0' :: '.' :: (List.replicate (-decpt).toNat '0' ++ digits.map digitChar)
  else if (digits.length : Int) ≤ decpt then
    digits.map digitChar ++
      (List.replicate (decpt - digits.length).toNat '0' ++ ['.', '0'])
  else
    (digits.take decpt.toNat).map digitChar ++
      '.' :: (digits.drop decpt.toNat).map digitChar

/-- Python `str`/`repr` of a float: `inf`/`nan` for the non-finite
values (not valid literals), signed `0.0` for zeros, and the
shortest-digits rendering of `formatShort` otherwise. -/
def pyFloatStr : PyFloat → String
  | .nan => "nan"
  | .inf neg => if neg then "-inf" else "inf"
  | .zero neg => if neg then "-0.0" else "0.0"
  | .finite neg digits decpt =>
      if neg then "-" ++ String.mk (formatShort digits decpt)
      else String.mk (formatShort digits decpt)

/-- One character of Python string `repr` under the chosen quote:
escape the backslash, the quote itself and the C escapes, render other
ASCII control characters as `\xNN`; everything else is kept.
(Unprintable non-ASCII code points would also be escaped by Python and
are kept as-is here; this does not affect the round-trip verdict, since
a kept character passes through evaluation unchanged exactly as its
escaped form does in Python.) -/
def reprEscapeChar (q c : Char) : List Char :=
  if c = '\\' then ['\\', '\\']
  else if c = q then ['\\', q]
  else if c = '\n' then ['\\', 'n']
  else if c = '\r' then ['\\', 'r']
  else if c = '\t' then ['\\', 't']
  else if c.toNat < 32 ∨ c.toNat = 127 then
    ['\\', 'x', hexDigitChar (c.toNat / 16), hexDigitChar (c.toNat % 16)]
  else [c]

/-- The quote Python `repr` chooses for a string: a single quote,
unless the string contains a single quote and no double quote. -/
def pyQuote (s : String) : Char :=
  if s.data.contains '\'' = true ∧ s.data.contains '"' = false then '"'
  else '\''

/-- Python `repr` of a string: the chosen quote, the characters escaped
per `reprEscapeChar`, the closing quote. -/
def pyStrRepr (s : String) : String :=
  String.mk (pyQuote s ::
    ((s.data.map (reprEscapeChar (pyQuote s))).flatten ++ [pyQuote s]))

mutual
/-- Python `repr` of a value: `None`/`True`/`False`, decimal integers,
escaped-quoted strings, a `datetime.datetime(...)` constructor call
(year, month, day, hour, minute always shown, seconds elided when zero,
as CPython does for microsecond-free values), bracketed lists of
element `repr`s. -/
def pyRepr : PyVal → String
  | .none => "None"
  | .bool b => if b then "True" else "False"
  | .int n => intToDec n
  | .float f => pyFloatStr f
  | .str s => pyStrRepr s
  | .dt d =>
    "datetime.datetime(" ++
      pyJoin ", "
        (([d.year, d.month, d.day, d.hour, d.minute] ++
          (if d.second = 0 then [] else [d.second])).map
          (fun k => intToDec (Int.ofNat k))) ++ ")"
  | .list xs => "[" ++ pyJoin ", " (pyReprList xs) ++ "]"

/-- `repr` of each element of a list. -/
def pyReprList : List PyVal → List String
  | [] => []
  | v :: vs => pyRepr v :: pyReprList vs
end

/-- Python `str` of a value: like `repr` except strings are unquoted and
datetimes use `isoformat(' ')`; `str` of a list is bracketed element
`repr`s. -/
def pyStr : PyVal → String
  | .none => "None"
  | .bool b => if b then "True" else "False"
  | .int n => intToDec n
  | .float f => pyFloatStr f
  | .str s => s
  | .dt d => isoformatSep ' ' d
  | .list xs => "[" ++ pyJoin ", " (pyReprList xs) ++ "]"

/-- Embedding of `as_python` over runtime values, in source branch
order: `None` first; the `UnionType` and `type` branches concern type
objects, which never occur in this runtime value space (the template
renders types through `type_as_python` instead); then `str` (a double
quote, the characters unchanged, a double quote — no escaping),
`datetime` (a `fromisoformat` constructor call over the ISO
representation), and the `str(value)` fallback for everything else. -/
def as_python : PyVal → String
  | .none => "None"
  | .str s => "\"" ++ s ++ "\""
  | .dt d => "datetime.datetime.fromisoformat(\"" ++ isoformat d ++ "\")"
  | v => pyStr v

/-! ## Type objects and the import set (plugin.py lines 392-416) -/

/-- Model of the Python type objects reaching `types_in`: a class or
generic alias (carrying its `__module__` — for an alias, the origin's —
whether it is a `datetime` subclass, and its `typing.get_args`), or a
`types.UnionType` value with its argument types. -/
inductive PyType where
  | cls (module : String) (isDatetimeSub : Bool) (args : List PyType)
  | union (args : List PyType)

/-- `typing.get_args`. -/
def pyGetArgs : PyType → List PyType
  | .cls _ _ args => args
  | .union args => args

/-- `cls.__module__`; a `types.UnionType` value lives in module
`types`. -/
def pyModule : PyType → String
  | .cls m _ _ => m
  | .union _ => "types"

/-- `isinstance(cls, type)`: true for classes and (through CPython's
`__class__` forwarding to the origin) for generic aliases, false for
union values. -/
def pyIsType : PyType → Bool
  | .cls _ _ _ => true
  | .union _ => false

/-- `issubclass(cls, datetime)` (resolved on the origin class). -/
def pyIsDatetimeSub : PyType → Bool
  | .cls _ d _ => d
  | .union _ => false

/-- `isinstance(cls, UnionType)`. -/
def pyIsUnion : PyType → Bool
  | .cls _ _ _ => false
  | .union _ => true

mutual
/-- Embedding of `types_in`: the type itself followed by the recursive
collection of every `typing.get_args` argument. -/
def types_in : PyType → List PyType
  | .cls m d args => .cls m d args :: types_in_list args
  | .union args => .union args :: types_in_list args

/-- The `for arg in typing.get_args(cls)` loop of `types_in`. -/
def types_in_list : List PyType → List PyType
  | [] => []
  | t :: ts => types_in t ++ types_in_list ts
end

/-- Embedding of the `Property` named tuple. -/
structure Property where
  property_config : PropertyConfig
  property_value : PyVal
  property_type : PyType
  metadata : Metadata

/-- Python `set.add`, on a duplicate-free list model of the set. -/
def setAdd (s : List String) (x : String) : List String :=
  if s.contains x then s else s ++ [x]

/-- The loop body of `get_imports_from_properties` for one collected
type: datetime classes contribute the `datetime` module (the freezegun
workaround — note the `elif`: such a class contributes nothing else);
otherwise any non-builtin non-union type contributes its `__module__`. -/
def importStep (imps : List String) (cls : PyType) : List String :=
  if pyIsType cls = true ∧ pyIsDatetimeSub cls = true then
    setAdd imps "datetime"
  else if pyModule cls ≠ "builtins" ∧ pyIsUnion cls = false then
    setAdd imps (pyModule cls)
  else imps

/-- Embedding of `get_imports_from_properties`: fold `importStep` over
the recursively collected types of every property. -/
def get_imports_from_properties (properties : List Property) : List String :=
  properties.foldl
    (fun imports property_item =>
      (types_in property_item.property_type).foldl importStep imports)
    []

/-- The import a single collected type contributes, if any (derived
one-step reading of `importStep`, used to state the characterization). -/
def importOf (cls : PyType) : Option String :=
  if pyIsType cls = true ∧ pyIsDatetimeSub cls = true then some "datetime"
  else if pyModule cls ≠ "builtins" ∧ pyIsUnion cls = false then
    some (pyModule cls)
  else Option.none

/-! ## Python literal evaluation

To state the round-trip property ("evaluating the source literal
produced by the formatter yields the original value"), Python's `eval`
is modelled for the expression forms `as_python` emits: `None`, `True`,
`False`, integer literals with unary minus, single- and double-quoted
string literals with backslash escapes (including `\xNN`),
`datetime.datetime.fromisoformat` constructor calls, float literals in
the fixed and scientific forms `str` emits, and list displays.
`\uNNNN` escapes and triple-quoted strings are outside the emitted
sublanguage and are not modelled.  A decimal float literal is mapped to
its normalized exact decimal decomposition; the additional rounding
CPython applies to literals that are not shortest representations is
outside the model and never exercised, since the formatter only emits
shortest forms. -/

/-- Consume an expected exact prefix. -/
def dropPfx : List Char → List Char → Option (List Char)
  | [], cs => some cs
  | p :: ps, c :: cs => if c = p then dropPfx ps cs else Option.none
  | _ :: _, [] => Option.none

/-- The numeric value of a hexadecimal digit character, if it is one. -/
def hexVal? (c : Char) : Option Nat :=
  if '0' ≤ c ∧ c ≤ '9' then some (c.toNat - 48)
  else if 'a' ≤ c ∧ c ≤ 'f' then some (c.toNat - 87)
  else if 'A' ≤ c ∧ c ≤ 'F' then some (c.toNat - 55)
  else Option.none

/-- Decode one backslash escape other than `\x`; an unrecognized escape
keeps both characters, as Python does. -/
def decodeEscape (e : Char) : List Char :=
  if e = '\\' then ['\\']
  else if e = '\'' then ['\'']
  else if e = '"' then ['"']
  else if e = 'n' then ['\n']
  else if e = 'r' then ['\r']
  else if e = 't' then ['\t']
  else ['\\', e]

/-- Parse the body of a Python string literal after its opening quote
`q`: stop at the closing quote, reject raw line breaks, decode escapes
(`\xNN` requires exactly two hex digits, as in Python).  Returns the
decoded characters and the input following the closing quote. -/
def parseStrBody (q : Char) : List Char → Option (List Char × List Char)
  | [] => Option.none
  | c :: cs =>
    if c = q then some ([], cs)
    else if c = '\n' ∨ c = '\r' then Option.none
    else if c = '\\' then
      match cs with
      | [] => Option.none
      | 'x' :: h1 :: h2 :: cs2 =>
        match hexVal? h1, hexVal? h2 with
        | some a, some b =>
          (parseStrBody q cs2).map
            (fun p => (Char.ofNat (16 * a + b) :: p.1, p.2))
        | _, _ => Option.none
      | 'x' :: _ => Option.none
      | e :: cs2 =>
        (parseStrBody q cs2).map (fun p => (decodeEscape e ++ p.1, p.2))
    else (parseStrBody q cs).map (fun p => (c :: p.1, p.2))

/-- Numeric value of a decimal digit character. -/
def charDigitVal (c : Char) : Nat := c.toNat - 48

/-- Maximal-munch run of decimal digits, as their numeric values. -/
def parseDigitList : List Char → List Nat × List Char
  | [] => ([], [])
  | c :: cs =>
    if c.isDigit then
      match parseDigitList cs with
      | (ds, r) => (charDigitVal c :: ds, r)
    else ([], c :: cs)

/-- The number a digit-value list denotes in base ten. -/
def digitsVal (ds : List Nat) : Nat := ds.foldl (fun a d => a * 10 + d) 0

/-- Strip trailing zero digits. -/
def stripTrailingZeros (ds : List Nat) : List Nat :=
  (ds.reverse.dropWhile (fun d => d == 0)).reverse

/-- Normalize a parsed decimal `0.digits·10^decpt` into the canonical
`PyFloat` decomposition: drop leading zeros (lowering the exponent),
drop trailing zeros, and collapse an all-zero significand to a signed
zero. -/
def normFloat (neg : Bool) (digits : List Nat) (decpt : Int) : PyFloat :=
  let lz := (digits.takeWhile (fun d => d == 0)).length
  let ds2 := stripTrailingZeros (digits.dropWhile (fun d => d == 0))
  if ds2 = [] then .zero neg
  else .finite neg ds2 (decpt - lz)

/-- The exponent suffix of a float literal: an optional sign and a
non-empty digit run. -/
def parseExponent (cs : List Char) : Option (Int × List Char) :=
  match cs with
  | '+' :: r =>
    match parseDigitList r with
    | ([], _) => Option.none
    | (ds, r2) => some ((digitsVal ds : Int), r2)
  | '-' :: r =>
    match parseDigitList r with
    | ([], _) => Option.none
    | (ds, r2) => some (-(digitsVal ds : Int), r2)
  | _ =>
    match parseDigitList cs with
    | ([], _) => Option.none
    | (ds, r2) => some ((digitsVal ds : Int), r2)

/-- A numeric literal starting at a digit: an integer, a point float
`D.D*[eS]`, or an exponent float `De S`, following Python's grammar for
the forms `str` emits.  The combined digits `I.F·10^E` denote
`0.(I++F)·10^(|I|+E)`, normalized into the canonical decomposition. -/
def parseNumber (neg : Bool) (cs : List Char) : Option (PyVal × List Char) :=
  match parseDigitList cs with
  | ([], _) => Option.none
  | (intDigits, r1) =>
    match r1 with
    | '.' :: r2 =>
      match parseDigitList r2 with
      | (fracDigits, r3) =>
        match r3 with
        | 'e' :: r4 =>
          (parseExponent r4).map (fun p =>
            (PyVal.float (normFloat neg (intDigits ++ fracDigits)
              ((intDigits.length : Int) + p.1)), p.2))
        | _ =>
          some (PyVal.float (normFloat neg (intDigits ++ fracDigits)
            (intDigits.length : Int)), r3)
    | 'e' :: r2 =>
      (parseExponent r2).map (fun p =>
        (PyVal.float (normFloat neg intDigits
          ((intDigits.length : Int) + p.1)), p.2))
    | _ =>
      some (if neg then PyVal.int (-(digitsVal intDigits : Int))
        else PyVal.int (digitsVal intDigits), r1)

/-- Parse exactly `k` decimal digits (accumulator form). -/
def parseKDigitsAux : Nat → Nat → List Char → Option (Nat × List Char)
  | 0, acc, cs => some (acc, cs)
  | _ + 1, _, [] => Option.none
  | k + 1, acc, c :: cs =>
    if c.isDigit then parseKDigitsAux k (acc * 10 + charDigitVal c) cs
    else Option.none

/-- Parse exactly `k` decimal digits. -/
def parseKDigits (k : Nat) (cs : List Char) : Option (Nat × List Char) :=
  parseKDigitsAux k 0 cs

/-- Consume one expected character. -/
def expectChar (c : Char) : List Char → Option (List Char)
  | [] => Option.none
  | x :: xs => if x = c then some xs else Option.none

/-- Model of `datetime.fromisoformat` restricted to the exact text
`isoformat` emits (`YYYY-MM-DDTHH:MM:SS`), consuming the whole input. -/
def parseIso (cs : List Char) : Option PyDateTime :=
  (parseKDigits 4 cs).bind fun py =>
  (expectChar '-' py.2).bind fun r1 =>
  (parseKDigits 2 r1).bind fun pmo =>
  (expectChar '-' pmo.2).bind fun r2 =>
  (parseKDigits 2 r2).bind fun pda =>
  (expectChar 'T' pda.2).bind fun r3 =>
  (parseKDigits 2 r3).bind fun ph =>
  (expectChar ':' ph.2).bind fun r4 =>
  (parseKDigits 2 r4).bind fun pmi =>
  (expectChar ':' pmi.2).bind fun r5 =>
  (parseKDigits 2 r5).bind fun ps =>
  match ps.2 with
  | [] => some ⟨py.1, pmo.1, pda.1, ph.1, pmi.1, ps.1⟩
  | _ => Option.none

/-- Tail of the keyword `None` after its first character. -/
def kwNone : List Char := ['o', 'n', 'e']

/-- Tail of the keyword `True` after its first character. -/
def kwTrue : List Char := ['r', 'u', 'e']

/-- Tail of the keyword `False` after its first character. -/
def kwFalse : List Char := ['a', 'l', 's', 'e']

/-- Tail of `datetime.datetime.fromisoformat(` after its first
character. -/
def kwFromIso : List Char := "atetime.datetime.fromisoformat(".data

mutual
/-- Fueled recursive-descent parser over the emitted expression forms;
returns the parsed value and the unconsumed input. -/
def parseVal : Nat → List Char → Option (PyVal × List Char)
  | 0, _ => Option.none
  | _ + 1, [] => Option.none
  | fuel + 1, c :: r =>
    if c = 'N' then (dropPfx kwNone r).map (fun rest => (PyVal.none, rest))
    else if c = 'T' then
      (dropPfx kwTrue r).map (fun rest => (PyVal.bool true, rest))
    else if c = 'F' then
      (dropPfx kwFalse r).map (fun rest => (PyVal.bool false, rest))
    else if c = 'd' then
      match dropPfx kwFromIso r with
      | Option.none => Option.none
      | some r1 =>
        match r1 with
        | '"' :: r2 =>
          match parseStrBody '"' r2 with
          | Option.none => Option.none
          | some (content, r3) =>
            match parseIso content with
            | Option.none => Option.none
            | some d =>
              match r3 with
              | ')' :: r4 => some (PyVal.dt d, r4)
              | _ => Option.none
        | _ => Option.none
    else if c = '"' then
      (parseStrBody '"' r).map (fun p => (PyVal.str (String.mk p.1), p.2))
    else if c = '\'' then
      (parseStrBody '\'' r).map (fun p => (PyVal.str (String.mk p.1), p.2))
    else if c = '[' then
      (parseElems fuel r).map (fun p => (PyVal.list p.1, p.2))
    else if c = '-' then
      parseNumber true r
    else if c.isDigit then
      parseNumber false (c :: r)
    else Option.none

/-- Elements of a list display after the opening bracket: an immediate
closing bracket, or values separated by `", "` up to it. -/
def parseElems : Nat → List Char → Option (List PyVal × List Char)
  | 0, _ => Option.none
  | _ + 1, [] => Option.none
  | fuel + 1, c :: r =>
    if c = ']' then some ([], r)
    else
      match parseVal fuel (c :: r) with
      | Option.none => Option.none
      | some (v, rest) =>
        match rest with
        | ']' :: r2 => some ([v], r2)
        | ',' :: ' ' :: r2 =>
          (parseElems fuel r2).map (fun p => (v :: p.1, p.2))
        | _ => Option.none
end

/-- Python `eval` of one complete expression: parse with ample fuel and
require the whole input to be consumed. -/
def evalLiteral (s : String) : Option PyVal :=
  match parseVal (s.data.length + 1) s.data with
  | some (v, []) => some v
  | _ => Option.none

/-- Characters the naive double-quoted rendering handles correctly:
anything but the double quote, the backslash, and line breaks. -/
def safeBareChar (c : Char) : Bool :=
  !(c == '"' || c == '\\' || c == '\n' || c == '\r')

/-- A canonical finite float decomposition: a nonempty digit list of
decimal digits with nonzero first and last digit (the shape
shortest-repr digits always have — a trailing zero could be dropped for
a shorter representation of the same value), or a signed zero.
Infinities and NaN are excluded: they render as `inf`/`nan`, which are
not literals. -/
def wellFormedFloat : PyFloat → Bool
  | .finite _ digits _ =>
      !digits.isEmpty && digits.all (fun d => decide (d < 10)) &&
        !(digits.head? == some 0) && !(digits.getLast? == some 0)
  | .zero _ => true
  | .inf _ => false
  | .nan => false

/-- The field ranges Python's `datetime` constructor enforces. -/
def validDateTime (d : PyDateTime) : Bool :=
  decide (1 ≤ d.year) && decide (d.year ≤ 9999) &&
  decide (1 ≤ d.month) && decide (d.month ≤ 12) &&
  decide (1 ≤ d.day) && decide (d.day ≤ 31) &&
  decide (d.hour ≤ 23) && decide (d.minute ≤ 59) && decide (d.second ≤ 59)

/-- The value shapes of the amended round-trip claim: booleans,
integers, finite floats, valid timestamps, strings of safe characters,
and homogeneous lists of arbitrary strings (the list path escapes via
`repr`, so every string list round-trips). -/
def safeVal : PyVal → Bool
  | .bool _ => true
  | .int _ => true
  | .float f => wellFormedFloat f
  | .str s => s.data.all safeBareChar
  | .dt d => validDateTime d
  | .list xs =>
    xs.all (fun el =>
      match el with
      | .str _ => true
      | _ => false)
  | .none => false

/-! ## Theorems -/

/-- Replacing the archive stored at a present path by the value already
stored there is the only way `fsUpdate` can leave the filesystem
unchanged at that path. -/
theorem fsUpdate_eq_self :
    ∀ (fs : FileSystem) (p : String) (ar v : TarArchive),
      fsLookup fs p = some ar → fsUpdate fs p v = fs → v = ar := by
  intro fs p ar v
  induction fs with
  | nil => intro h _; simp [fsLookup] at h
  | cons kv t ih =>
      obtain ⟨q, a⟩ := kv
      intro h hu
      by_cases hq : q = p
      · subst hq
        simp [fsLookup] at h
        simp [fsUpdate] at hu
        exact hu.trans h
      · simp only [fsLookup, if_neg hq] at h
        simp only [fsUpdate, if_neg hq] at hu
        rw [List.cons.injEq] at hu
        exact ih h hu.2

/-- In an archive with pairwise distinct member names, filtering the
members by one member's name yields exactly that member. -/
theorem filter_name_eq_of_nodup :
    ∀ (l : List TarEntry), (l.map (fun e => e.name)).Nodup →
      ∀ m ∈ l, l.filter (fun e => e.name == m.name) = [m] := by
  intro l
  induction l with
  | nil => intro _ m hm; simp at hm
  | cons a t ih =>
      intro hnd m hm
      simp only [List.map_cons, List.nodup_cons] at hnd
      obtain ⟨hna, hndt⟩ := hnd
      rcases List.mem_cons.mp hm with rfl | hmt
      · have hfilt : t.filter (fun e => e.name == m.name) = [] := by
          rw [List.filter_eq_nil_iff]
          intro e het hbe
          exact hna (by
            have : e.name = m.name := by simpa using hbe
            rw [← this]
            exact List.mem_map_of_mem (fun e => e.name) het)
        simp [List.filter_cons, hfilt]
      · have hmm : m.name ∈ t.map (fun e => e.name) :=
          List.mem_map_of_mem (fun e => e.name) hmt
        have hne : ¬ a.name = m.name := fun hh => hna (hh ▸ hmm)
        have : (a.name == m.name) = false := by simpa using hne
        simp [List.filter_cons, this, ih hndt m hmt]

/-- With duplicate-free member names, re-reading a member's content by
name gives back that member's own content. -/
theorem extract_file_data_of_nodup {ar : TarArchive}
    (h : (ar.entries.map (fun e => e.name)).Nodup) {m : TarEntry}
    (hm : m ∈ ar.entries) : extract_file_data ar m.name = m.data := by
  unfold extract_file_data
  rw [filter_name_eq_of_nodup ar.entries h m hm]
  rfl

/-- A map that fixes every element of a list is the identity on it. -/
theorem list_map_eq_self {α : Type} :
    ∀ (l : List α) (f : α → α), (∀ x ∈ l, f x = x) → l.map f = l := by
  intro l f
  induction l with
  | nil => intro _; rfl
  | cons a t ih =>
      intro h
      simp only [List.map_cons, h a (List.mem_cons_self a t),
        ih (fun x hx => h x (List.mem_cons_of_mem a hx))]

/-- `splitFirst` finds the first occurrence of the separator. -/
theorem splitFirst_append_of_not_contains (c : Char) :
    ∀ (l r : List Char), l.contains c = false →
      splitFirst c (l ++ c :: r) = some (l, r) := by
  intro l r h
  induction l with
  | nil => simp [splitFirst]
  | cons x xs ih =>
      simp only [List.contains_cons, Bool.or_eq_false_iff, beq_eq_false_iff_ne] at h
      have hx : ¬ x = c := fun hxc => h.1 hxc.symm
      have ih' := ih h.2
      simp [splitFirst, hx, ih']

/-- `String.data` distributes over append. -/
theorem string_data_append (s t : String) : (s ++ t).data = s.data ++ t.data := by
  cases s; cases t; rfl

/-- Rebuilding a string from its character list is the identity. -/
theorem string_mk_data (s : String) : String.mk s.data = s := by
  cases s; rfl

/-- C5: the two property-request syntaxes are asymmetric.  A compact
string is split at the first `-` into generator key and property name
and an unknown generator key raises `ValueError`; an expanded item
missing its generator key or its property name is silently skipped and
parsing continues with the remaining items. -/
theorem parse_include_property_configs_asymmetry :
    (∀ (pre post : String), pre.data.contains '-' = false →
      pySplit1Dash (pre ++ "-" ++ post) = [pre, post]) ∧
    (∀ (gens : List (String × Generator)) (s gk pn : String)
        (rest : List ConfigItem),
      pySplit1Dash s = [gk, pn] → lookupGenerator gens gk = none →
      parse_include_property_configs gens (.str s :: rest) =
        .error .valueError) ∧
    (∀ (gens : List (String × Generator)) (t : InlineTableItem)
        (rest : List ConfigItem),
      t.property_generator = none ∨ t.property_name = none →
      parse_include_property_configs gens (.table t :: rest) =
        parse_include_property_configs gens rest) := by
  refine ⟨?_, ?_, ?_⟩
  · intro pre post h
    have hdata : (pre ++ "-" ++ post).data = pre.data ++ '-' :: post.data := by
      rw [string_data_append, string_data_append]
      show pre.data ++ ['-'] ++ post.data = _
      simp
    simp only [pySplit1Dash, hdata,
      splitFirst_append_of_not_contains '-' pre.data post.data h,
      string_mk_data]
  · intro gens s gk pn rest h1 h2
    simp [parse_include_property_configs, h1, h2]
  · intro gens t rest h
    obtain ⟨tg, tn, tv, tm⟩ := t
    rcases h with h | h
    · simp only at h
      subst h
      cases tn <;> simp [parse_include_property_configs]
    · simp only at h
      subst h
      simp [parse_include_property_configs]

/-- C5 witness: the asymmetry theorem applied at concrete inputs — the
split of `project-name`, the `ValueError` on the unknown generator key
of `unknown-name`, and the silent skip of a table item lacking its
generator key. -/
theorem parse_include_property_configs_asymmetry_witness :
    pySplit1Dash ("project" ++ "-" ++ "name") = ["project", "name"] ∧
    parse_include_property_configs [("project", ⟨"project"⟩)]
        [.str "unknown-name"] = .error .valueError ∧
    parse_include_property_configs [("project", ⟨"project"⟩)]
        [.table ⟨none, some "name", none, none⟩, .str "project-name"] =
      parse_include_property_configs [("project", ⟨"project"⟩)]
        [.str "project-name"] :=
  ⟨parse_include_property_configs_asymmetry.1 "project" "name" (by decide),
   parse_include_property_configs_asymmetry.2.1 [("project", ⟨"project"⟩)]
     "unknown-name" "unknown" "name" [] (by decide) (by decide),
   parse_include_property_configs_asymmetry.2.2 [("project", ⟨"project"⟩)]
     ⟨none, some "name", none, none⟩ [.str "project-name"] (Or.inl rfl)⟩

/-- C6: a parsed request that does not override the output identifier is
assigned the variable name `short_name() + "_" + property_name` with
every `-` replaced by `_` — both for compact strings and for expanded
items without a `variable-name` field — while an expanded item with an
explicit `variable-name` uses that name verbatim. -/
theorem parse_include_property_configs_variable_names :
    (∀ (gens : List (String × Generator)) (s gk pn : String) (g : Generator)
        (rest : List ConfigItem) (tail : List PropertyConfig),
      pySplit1Dash s = [gk, pn] → lookupGenerator gens gk = some g →
      parse_include_property_configs gens rest = .ok tail →
      parse_include_property_configs gens (.str s :: rest) =
        .ok (⟨g, pn, g.short_name ++ "_" ++ pyReplaceDash pn, []⟩ :: tail)) ∧
    (∀ (gens : List (String × Generator)) (k pn : String)
        (md : Option Metadata) (g : Generator) (rest : List ConfigItem)
        (tail : List PropertyConfig),
      lookupGenerator gens k = some g →
      parse_include_property_configs gens rest = .ok tail →
      parse_include_property_configs gens
          (.table ⟨some k, some pn, none, md⟩ :: rest) =
        .ok (⟨g, pn, g.short_name ++ "_" ++ pyReplaceDash pn, md.getD []⟩ ::
          tail)) ∧
    (∀ (gens : List (String × Generator)) (k pn vn : String)
        (md : Option Metadata) (g : Generator) (rest : List ConfigItem)
        (tail : List PropertyConfig),
      lookupGenerator gens k = some g →
      parse_include_property_configs gens rest = .ok tail →
      parse_include_property_configs gens
          (.table ⟨some k, some pn, some vn, md⟩ :: rest) =
        .ok (⟨g, pn, vn, md.getD []⟩ :: tail)) := by
  refine ⟨?_, ?_, ?_⟩
  · intro gens s gk pn g rest tail h1 h2 h3
    simp [parse_include_property_configs, h1, h2, h3, Except.map]
  · intro gens k pn md g rest tail h1 h2
    simp [parse_include_property_configs, h1, h2, Except.map]
  · intro gens k pn vn md g rest tail h1 h2
    simp [parse_include_property_configs, h1, h2, Except.map]

/-- C6 witness: default naming on the compact request `git-commit-id`
(yielding `git_commit_id`) and explicit naming on an expanded request. -/
theorem parse_include_property_configs_variable_names_witness :
    parse_include_property_configs [("git", ⟨"git"⟩)] [.str "git-commit-id"] =
      .ok [⟨⟨"git"⟩, "commit-id", "git_commit_id", []⟩] ∧
    parse_include_property_configs [("git", ⟨"git"⟩)]
        [.table ⟨some "git", some "commit-id", some "sha", none⟩] =
      .ok [⟨⟨"git"⟩, "commit-id", "sha", []⟩] :=
  ⟨parse_include_property_configs_variable_names.1 [("git", ⟨"git"⟩)]
      "git-commit-id" "git" "commit-id" ⟨"git"⟩ [] [] (by decide) (by decide)
      rfl,
   parse_include_property_configs_variable_names.2.2 [("git", ⟨"git"⟩)]
      "git" "commit-id" "sha" none ⟨"git"⟩ [] [] (by decide) rfl⟩

/-- C3: the claim states `get_compression` maps `.tar` to no compression,
`.tgz` to gzip, `.tar.gz`/`.tar.bz2`/`.tar.xz` to their schemes, and
raises a fatal error for every other suffix shape.  The code instead
raises `ValueError` for single-suffix paths such as `demo.tgz` and
`demo.tar` (unpacking `suffixes[-2:]` into two variables fails), making
the `return "gz"` and `return ""` branches of the source unreachable,
and it returns an arbitrary unvalidated last suffix such as `zst`.
This theorem evaluates the code at the failing inputs. -/
theorem get_compression_single_suffix_bug :
    get_compression "demo.tgz" = .error .valueError ∧
    get_compression "demo.tar" = .error .valueError ∧
    get_compression "demo.tar.zst" = .ok "zst" ∧
    get_compression "demo.tar.gz" = .ok "gz" ∧
    get_compression "demo.tar.bz2" = .ok "bz2" ∧
    get_compression "demo.tar.xz" = .ok "xz" :=
  ⟨rfl, rfl, rfl, rfl, rfl, rfl⟩

/-- C10: resolving `patch-build-formats` normalizes a single string: the
empty string becomes the empty list, a non-empty string becomes the
one-element list containing it, and a list value is kept as-is (a
missing value defaults to the empty list). -/
theorem resolve_patch_build_formats_normalizes :
    resolve_patch_build_formats (some (.vstr "")) = [] ∧
    (∀ s : String, s ≠ "" → resolve_patch_build_formats (some (.vstr s)) = [s]) ∧
    (∀ xs : List String, resolve_patch_build_formats (some (.vlist xs)) = xs) ∧
    resolve_patch_build_formats none = [] := by
  refine ⟨rfl, ?_, fun xs => rfl, rfl⟩
  intro s hs
  simp [resolve_patch_build_formats, hs]

/-- C10 witness: the normalization theorem applied at the concrete
non-empty string `"wheel"`. -/
theorem resolve_patch_build_formats_normalizes_witness :
    ("wheel" : String) ≠ "" ∧
      resolve_patch_build_formats (some (.vstr "wheel")) = ["wheel"] :=
  ⟨by decide, resolve_patch_build_formats_normalizes.2.1 "wheel" (by decide)⟩

/-- C4: patching a wheel appends the generated content as a new entry
under the configured relative path with deflate compression, removing or
deduplicating nothing; patching twice with the same entry name therefore
yields two entries with that name. -/
theorem update_wheel_archive_appends :
    (∀ (entries : List ZipEntry) (n d : String),
      update_wheel_archive entries n d =
        entries ++ [⟨n, d, ZipCompression.deflated⟩]) ∧
    (∀ (entries : List ZipEntry) (n d d' : String),
      ((update_wheel_archive (update_wheel_archive entries n d) n d').filter
          (fun e => e.name = n)).length =
        ((entries.filter (fun e => e.name = n)).length + 2)) := by
  refine ⟨fun entries n d => rfl, fun entries n d d' => ?_⟩
  simp [update_wheel_archive, List.filter_append]

/-- C1 (amended): for an existing archive whose path resolves to a
readable compression matching the archive's own scheme and whose member
names are duplicate-free, `append_tar_file` with `replace=true` replaces
the file with an archive holding every original member not named
`file_name`, byte-identical in content and header, followed by the new
entry with the given bytes, recorded size equal to their length, and the
same compression scheme.  (The duplicate-free condition is forced by the
counterexample `append_tar_file_replace_cex`: content is re-read by name
from the last member bearing it; the compression hypotheses are forced
because `get_compression` raises on paths such as `demo.tar`.) -/
theorem append_tar_file_replace_spec :
    ∀ (fs : FileSystem) (p : String) (ar : TarArchive) (d : List Nat)
      (n c : String),
    fsLookup fs p = some ar →
    get_compression p = .ok c →
    readable_compressions.contains c = true →
    ar.compression = c →
    (ar.entries.map (fun e => e.name)).Nodup →
    append_tar_file d n p true fs =
      .ok (fsUpdate fs p
        ⟨c, (ar.entries.filter (fun e => e.name != n)) ++
            [⟨n, d, d.length, defaultTarMeta⟩]⟩) := by
  intro fs p ar d n c h1 h2 h3 h4 h5
  have hreb : rebuild_archive ar n d =
      ⟨c, (ar.entries.filter (fun e => e.name != n)) ++
          [⟨n, d, d.length, defaultTarMeta⟩]⟩ := by
    unfold rebuild_archive
    rw [TarArchive.mk.injEq]
    refine ⟨h4, ?_⟩
    rw [List.append_cancel_right_eq]
    apply list_map_eq_self
    intro m hmfilt
    have hm : m ∈ ar.entries := List.mem_of_mem_filter hmfilt
    rw [extract_file_data_of_nodup h5 hm]
  have h3' : c ∈ readable_compressions := by simpa using h3
  simp [append_tar_file, h1, h2, h3', h4, hreb]

/-- C1 witness: the replace theorem applied to a concrete two-member
gzip archive, patching `pkg/info`. -/
theorem append_tar_file_replace_spec_witness :
    ((TarArchive.mk "gz"
        [⟨"old", [7], 1, ⟨5, 420, 0, 0⟩⟩, ⟨"pkg/info", [1], 1, defaultTarMeta⟩]
      ).entries.map (fun e => e.name)).Nodup ∧
    append_tar_file [3, 4] "pkg/info" "s.tar.gz" true
        [("s.tar.gz", ⟨"gz",
          [⟨"old", [7], 1, ⟨5, 420, 0, 0⟩⟩,
           ⟨"pkg/info", [1], 1, defaultTarMeta⟩]⟩)] =
      .ok [("s.tar.gz", ⟨"gz",
        [⟨"old", [7], 1, ⟨5, 420, 0, 0⟩⟩,
         ⟨"pkg/info", [3, 4], 2, defaultTarMeta⟩]⟩)] :=
  ⟨by decide,
   append_tar_file_replace_spec
     [("s.tar.gz", ⟨"gz",
       [⟨"old", [7], 1, ⟨5, 420, 0, 0⟩⟩,
        ⟨"pkg/info", [1], 1, defaultTarMeta⟩]⟩)]
     "s.tar.gz"
     ⟨"gz", [⟨"old", [7], 1, ⟨5, 420, 0, 0⟩⟩,
             ⟨"pkg/info", [1], 1, defaultTarMeta⟩]⟩
     [3, 4] "pkg/info" "gz" (by decide) (by decide) (by decide) (by decide)
     (by decide)⟩

/-- C1 counterexample: an archive holding two members both named `a`
with different contents `[1]` and `[2]`.  The claim requires every kept
member to stay byte-identical, but the rewrite re-reads content by name
(`tar.extractfile(member.name)` returns the last member of that name),
so both kept members come out with content `[2]`. -/
theorem append_tar_file_replace_cex :
    append_tar_file [9] "b" "p.tar.gz" true
        [("p.tar.gz", ⟨"gz", [⟨"a", [1], 1, defaultTarMeta⟩,
                              ⟨"a", [2], 1, defaultTarMeta⟩]⟩)] =
      .ok [("p.tar.gz", ⟨"gz", [⟨"a", [2], 1, defaultTarMeta⟩,
                                ⟨"a", [2], 1, defaultTarMeta⟩,
                                ⟨"b", [9], 1, defaultTarMeta⟩]⟩)] ∧
    ¬ append_tar_file [9] "b" "p.tar.gz" true
        [("p.tar.gz", ⟨"gz", [⟨"a", [1], 1, defaultTarMeta⟩,
                              ⟨"a", [2], 1, defaultTarMeta⟩]⟩)] =
      .ok [("p.tar.gz", ⟨"gz", [⟨"a", [1], 1, defaultTarMeta⟩,
                                ⟨"a", [2], 1, defaultTarMeta⟩,
                                ⟨"b", [9], 1, defaultTarMeta⟩]⟩)] := by
  decide

/-- C2 (amended): the patcher returns with the filesystem unchanged when
no file exists at the path (a success, not an error), and when `replace`
is false, the compression resolves and matches, and a member with the
target name exists.  Conversely, a successful call that leaves the
filesystem unchanged is one of those two cases or a rewrite whose
rebuilt archive coincides with the original (the extra disjunct is
forced by `append_tar_file_unchanged_cex`). -/
theorem append_tar_file_unchanged_characterization :
    (∀ (fs : FileSystem) (p n : String) (d : List Nat) (r : Bool),
      fsLookup fs p = none → append_tar_file d n p r fs = .ok fs) ∧
    (∀ (fs : FileSystem) (p n : String) (d : List Nat) (ar : TarArchive)
        (c : String),
      fsLookup fs p = some ar → get_compression p = .ok c →
      readable_compressions.contains c = true → ar.compression = c →
      (ar.entries.map (fun m => m.name)).contains n = true →
      append_tar_file d n p false fs = .ok fs) ∧
    (∀ (fs : FileSystem) (p n : String) (d : List Nat) (r : Bool),
      append_tar_file d n p r fs = .ok fs →
      fsLookup fs p = none ∨
      (r = false ∧ ∃ ar, fsLookup fs p = some ar ∧
        (ar.entries.map (fun m => m.name)).contains n = true) ∨
      (∃ ar, fsLookup fs p = some ar ∧ rebuild_archive ar n d = ar)) := by
  refine ⟨?_, ?_, ?_⟩
  · intro fs p n d r h
    simp [append_tar_file, h]
  · intro fs p n d ar c h1 h2 h3 h4 h5
    have h3' : c ∈ readable_compressions := by simpa using h3
    have h5' : ∃ a ∈ ar.entries, a.name = n := by
      have hmem : n ∈ ar.entries.map (fun m => m.name) := by simpa using h5
      obtain ⟨a, ha, hee⟩ := List.mem_map.mp hmem
      exact ⟨a, ha, hee⟩
    simp [append_tar_file, h1, h2, h3', h4, h5']
  · intro fs p n d r h
    cases hl : fsLookup fs p with
    | none => exact Or.inl rfl
    | some ar =>
        simp only [append_tar_file, hl] at h
        cases hc : get_compression p with
        | error e => rw [hc] at h; exact absurd h (by simp)
        | ok c =>
            simp only [hc] at h
            by_cases hcond : readable_compressions.contains c = true ∧
                ar.compression = c
            · rw [if_pos hcond] at h
              by_cases hnoop : r = false ∧
                  (ar.entries.map (fun m => m.name)).contains n = true
              · exact Or.inr (Or.inl ⟨hnoop.1, ar, rfl, hnoop.2⟩)
              · rw [if_neg hnoop] at h
                simp only [Except.ok.injEq] at h
                exact Or.inr (Or.inr ⟨ar, rfl,
                  fsUpdate_eq_self fs p ar (rebuild_archive ar n d) hl h⟩)
            · rw [if_neg hcond] at h
              exact absurd h (by simp)

/-- C2 witness: the no-op of the second case applied to a concrete
archive already containing the entry, with `replace=false`. -/
theorem append_tar_file_unchanged_characterization_witness :
    (([TarEntry.mk "e" [9] 1 defaultTarMeta].map (fun m => m.name)).contains
        "e" = true) ∧
    append_tar_file [0] "e" "b.tar.gz" false
        [("b.tar.gz", ⟨"gz", [⟨"e", [9], 1, defaultTarMeta⟩]⟩)] =
      .ok [("b.tar.gz", ⟨"gz", [⟨"e", [9], 1, defaultTarMeta⟩]⟩)] :=
  ⟨by decide,
   append_tar_file_unchanged_characterization.2.1
     [("b.tar.gz", ⟨"gz", [⟨"e", [9], 1, defaultTarMeta⟩]⟩)]
     "b.tar.gz" "e" [0] ⟨"gz", [⟨"e", [9], 1, defaultTarMeta⟩]⟩ "gz"
     (by decide) (by decide) (by decide) (by decide) (by decide)⟩

/-- C2 counterexample: a third unchanged case exists.  Re-appending, with
`replace=true`, an entry whose content, size and header coincide with the
archive's only (and final) member rebuilds an archive equal to the
original, so the call succeeds and leaves the filesystem unchanged even
though a file exists at the path and `replace` is true — refuting the
claim's "in exactly two cases". -/
theorem append_tar_file_unchanged_cex :
    fsLookup [("a.tar.bz2", ⟨"bz2", [⟨"pkg/x", [1, 2], 2, defaultTarMeta⟩]⟩)]
        "a.tar.bz2" ≠ none ∧
    append_tar_file [1, 2] "pkg/x" "a.tar.bz2" true
        [("a.tar.bz2", ⟨"bz2", [⟨"pkg/x", [1, 2], 2, defaultTarMeta⟩]⟩)] =
      .ok [("a.tar.bz2", ⟨"bz2", [⟨"pkg/x", [1, 2], 2, defaultTarMeta⟩]⟩)] := by
  decide

/-- Digit characters are decimal digits. -/
theorem digitChar_isDigit (n : Nat) (h : n < 10) :
    (digitChar n).isDigit = true := by
  interval_cases n <;> decide

/-- The numeric value of a digit character. -/
theorem charDigitVal_digitChar (n : Nat) (h : n < 10) :
    charDigitVal (digitChar n) = n := by
  interval_cases n <;> decide

/-- Every character the decimal printer emits is a digit. -/
theorem natDigitsAux_digits :
    ∀ (fuel n : Nat), n < fuel → ∀ c ∈ natDigitsAux fuel n, c.isDigit = true := by
  intro fuel
  induction fuel with
  | zero => intro n h; omega
  | succ f ih =>
      intro n h c hc
      unfold natDigitsAux at hc
      by_cases h10 : n < 10
      · rw [if_pos h10] at hc
        simp only [List.mem_singleton] at hc
        subst hc
        exact digitChar_isDigit n h10
      · rw [if_neg h10] at hc
        have hdiv : n / 10 < n := Nat.div_lt_self (by omega) (by omega)
        rcases List.mem_append.mp hc with hc1 | hc2
        · exact ih (n / 10) (by omega) c hc1
        · simp only [List.mem_singleton] at hc2
          subst hc2
          exact digitChar_isDigit (n % 10) (Nat.mod_lt n (by omega))

/-- The decimal printer emits at least one digit. -/
theorem natDigitsAux_ne_nil (fuel n : Nat) (h : n < fuel) :
    natDigitsAux fuel n ≠ [] := by
  cases fuel with
  | zero => omega
  | succ f =>
      unfold natDigitsAux
      by_cases h10 : n < 10
      · rw [if_pos h10]; simp
      · rw [if_neg h10]; simp

/-- Folding the base-ten accumulator over the digits of `n` recovers
`n`, shifted under the accumulator. -/
theorem foldDigits_natDigitsAux :
    ∀ (fuel n acc : Nat), n < fuel →
      (natDigitsAux fuel n).foldl (fun a c => a * 10 + charDigitVal c) acc =
        acc * 10 ^ (natDigitsAux fuel n).length + n := by
  intro fuel
  induction fuel with
  | zero => intro n acc h; omega
  | succ f ih =>
      intro n acc h
      unfold natDigitsAux
      by_cases h10 : n < 10
      · rw [if_pos h10]
        simp [charDigitVal_digitChar n h10]
      · rw [if_neg h10]
        have hdiv : n / 10 < n := Nat.div_lt_self (by omega) (by omega)
        rw [List.foldl_append, ih (n / 10) acc (by omega)]
        simp only [List.foldl_cons, List.foldl_nil, List.length_append,
          List.length_singleton]
        rw [charDigitVal_digitChar (n % 10) (Nat.mod_lt n (by omega))]
        rw [pow_succ]
        have hm : n / 10 * 10 + n % 10 = n := by omega
        ring_nf
        omega

/-- The digit-run parser consumes an all-digit block whole, stopping at
the first non-digit. -/
theorem parseDigitList_digits :
    ∀ (cs rest : List Char), (∀ c ∈ cs, c.isDigit = true) →
      (match rest with | [] => True | c :: _ => c.isDigit = false) →
      parseDigitList (cs ++ rest) = (cs.map charDigitVal, rest) := by
  intro cs
  induction cs with
  | nil =>
      intro rest _ hrest
      cases rest with
      | nil => rfl
      | cons c r =>
          show parseDigitList (c :: r) = ([], c :: r)
          unfold parseDigitList
          simp only at hrest
          rw [if_neg (by simp [hrest])]
  | cons c cs ih =>
      intro rest hall hrest
      show parseDigitList (c :: (cs ++ rest)) = _
      unfold parseDigitList
      rw [if_pos (hall c (List.mem_cons_self c cs))]
      rw [ih rest (fun x hx => hall x (List.mem_cons_of_mem c hx)) hrest]
      rfl

/-- `digitsVal` of the values of a character run is the digit fold. -/
theorem digitsVal_map_charDigitVal (cs : List Char) :
    digitsVal (cs.map charDigitVal) =
      cs.foldl (fun a c => a * 10 + charDigitVal c) 0 := by
  unfold digitsVal
  rw [List.foldl_map]

/-- The numeric-literal parser on a bare digit run produces the
(possibly negated) integer. -/
theorem parseNumber_int (neg : Bool) (m : Nat) :
    parseNumber neg (natDigits m) =
      some (if neg then PyVal.int (-(m : Int)) else PyVal.int (m : Int),
        []) := by
  have hall := natDigitsAux_digits (m + 1) m (by omega)
  have hne := natDigitsAux_ne_nil (m + 1) m (by omega)
  show parseNumber neg (natDigitsAux (m + 1) m) = _
  cases hcons : natDigitsAux (m + 1) m with
  | nil => exact absurd hcons hne
  | cons c cs =>
      have hall' : ∀ x ∈ c :: cs, x.isDigit = true := by
        rw [← hcons]; exact hall
      have hpd : parseDigitList (c :: cs) = ((c :: cs).map charDigitVal, []) := by
        have h0 := parseDigitList_digits (c :: cs) [] hall' trivial
        simpa using h0
      have hval : digitsVal ((c :: cs).map charDigitVal) = m := by
        rw [digitsVal_map_charDigitVal, ← hcons]
        rw [foldDigits_natDigitsAux (m + 1) m 0 (by omega)]
        simp
      unfold parseNumber
      rw [hpd]
      show some (if neg then
          PyVal.int (-(digitsVal ((c :: cs).map charDigitVal) : Int))
        else PyVal.int (digitsVal ((c :: cs).map charDigitVal)), []) = _
      rw [hval]

/-- The fixed-width digit parser consumes exactly an all-digit block of
its width. -/
theorem parseKDigitsAux_append :
    ∀ (ds : List Char) (acc : Nat) (rest : List Char),
      (∀ c ∈ ds, c.isDigit = true) →
      parseKDigitsAux ds.length acc (ds ++ rest) =
        some (ds.foldl (fun a c => a * 10 + charDigitVal c) acc, rest) := by
  intro ds
  induction ds with
  | nil => intro acc rest _; rfl
  | cons c cs ih =>
      intro acc rest hall
      show parseKDigitsAux (cs.length + 1) acc (c :: (cs ++ rest)) = _
      unfold parseKDigitsAux
      rw [if_pos (hall c (List.mem_cons_self c cs))]
      rw [ih _ rest (fun x hx => hall x (List.mem_cons_of_mem c hx))]
      simp

/-- A number below `10 ^ k` prints to at most `k` digits. -/
theorem natDigitsAux_length_le :
    ∀ (fuel n k : Nat), n < fuel → n < 10 ^ k → 1 ≤ k →
      (natDigitsAux fuel n).length ≤ k := by
  intro fuel
  induction fuel with
  | zero => intro n k h; omega
  | succ f ih =>
      intro n k h hnk hk
      unfold natDigitsAux
      by_cases h10 : n < 10
      · rw [if_pos h10]
        simpa using hk
      · rw [if_neg h10]
        have hk1 : k ≠ 1 := by
          intro hk1
          subst hk1
          simp at hnk
          omega
        have hk2 : 2 ≤ k := by omega
        have hpow : 10 ^ k = 10 ^ (k - 1) * 10 := by
          conv_lhs => rw [show k = (k - 1) + 1 by omega]
          rw [pow_succ]
        have hdivlt : n / 10 < 10 ^ (k - 1) := by
          apply Nat.div_lt_of_lt_mul
          omega
        have hdiv : n / 10 < n := Nat.div_lt_self (by omega) (by omega)
        have := ih (n / 10) (k - 1) (by omega) hdivlt (by omega)
        rw [List.length_append, List.length_singleton]
        omega

/-- The character list behind `padDigits`. -/
theorem padDigits_data (k n : Nat) :
    (padDigits k n).data =
      List.replicate (k - (natDigits n).length) '0' ++ natDigits n := rfl

/-- Padded renderings of small numbers have exactly width `k`. -/
theorem padDigits_length (k n : Nat) (h : (natDigits n).length ≤ k) :
    (padDigits k n).data.length = k := by
  rw [padDigits_data, List.length_append, List.length_replicate]
  omega

/-- Every character of a padded rendering is a digit. -/
theorem padDigits_all_digits (k n : Nat) :
    ∀ c ∈ (padDigits k n).data, c.isDigit = true := by
  intro c hc
  rw [padDigits_data] at hc
  rcases List.mem_append.mp hc with h | h
  · have hc0 : c = '0' := List.eq_of_mem_replicate h
    subst hc0
    decide
  · exact natDigitsAux_digits (n + 1) n (by omega) c h

/-- Folding the digit accumulator over a padded rendering recovers the
number (leading zeros contribute nothing). -/
theorem foldDigits_padDigits (k n : Nat) :
    (padDigits k n).data.foldl (fun a c => a * 10 + charDigitVal c) 0 = n := by
  rw [padDigits_data, List.foldl_append]
  have hz : ∀ z : Nat,
      (List.replicate z '0').foldl (fun a c => a * 10 + charDigitVal c) 0 = 0 := by
    intro z
    induction z with
    | zero => rfl
    | succ m ihm =>
        rw [List.replicate_succ, List.foldl_cons]
        simpa [charDigitVal] using ihm
  rw [hz]
  unfold natDigits
  rw [foldDigits_natDigitsAux (n + 1) n 0 (by omega)]
  simp

/-- The fixed-width parser inverts the padded printer. -/
theorem parseKDigits_padDigits (k n : Nat) (hk : 1 ≤ k) (hn : n < 10 ^ k)
    (rest : List Char) :
    parseKDigits k ((padDigits k n).data ++ rest) = some (n, rest) := by
  have hlen : (natDigits n).length ≤ k :=
    natDigitsAux_length_le (n + 1) n k (by omega) hn hk
  have hlen2 : (padDigits k n).data.length = k := padDigits_length k n hlen
  have happ := parseKDigitsAux_append (padDigits k n).data 0 rest
    (padDigits_all_digits k n)
  rw [hlen2] at happ
  unfold parseKDigits
  rw [happ, foldDigits_padDigits]

/-- The string-body parser is inverse to plain embedding for contents
free of the quote, the backslash, and line breaks. -/
theorem parseStrBody_safe (q : Char) :
    ∀ (l rest : List Char),
      (∀ c ∈ l, ¬ c = q ∧ ¬ c = '\\' ∧ ¬ c = '\n' ∧ ¬ c = '\r') →
      parseStrBody q (l ++ q :: rest) = some (l, rest) := by
  intro l
  induction l with
  | nil =>
      intro rest _
      show parseStrBody q (q :: rest) = _
      unfold parseStrBody
      rw [if_pos rfl]
  | cons c cs ih =>
      intro rest hall
      obtain ⟨h1, h2, h3, h4⟩ := hall c (List.mem_cons_self c cs)
      show parseStrBody q (c :: (cs ++ q :: rest)) = _
      unfold parseStrBody
      rw [if_neg h1, if_neg (by simp [h3, h4] : ¬(c = '\n' ∨ c = '\r')),
        if_neg h2]
      rw [ih rest (fun x hx => hall x (List.mem_cons_of_mem c hx))]
      rfl

/-- Consuming a literal prefix succeeds on itself. -/
theorem dropPfx_self : ∀ (p cs : List Char), dropPfx p (p ++ cs) = some cs := by
  intro p
  induction p with
  | nil => intro cs; rfl
  | cons x xs ih =>
      intro cs
      show dropPfx (x :: xs) (x :: (xs ++ cs)) = _
      unfold dropPfx
      rw [if_pos rfl]
      exact ih cs

/-- Consuming an expected character succeeds on it. -/
theorem expectChar_cons (c : Char) (xs : List Char) :
    expectChar c (c :: xs) = some xs := by
  show (if c = c then some xs else Option.none) = some xs
  rw [if_pos rfl]

/-- The character list behind an ISO rendering, decomposed at its
delimiters. -/
theorem isoformatSep_data (sep : Char) (d : PyDateTime) :
    (isoformatSep sep d).data =
      (padDigits 4 d.year).data ++ '-' :: ((padDigits 2 d.month).data ++ '-' ::
      ((padDigits 2 d.day).data ++ sep :: ((padDigits 2 d.hour).data ++ ':' ::
      ((padDigits 2 d.minute).data ++ ':' :: (padDigits 2 d.second).data)))) := by
  unfold isoformatSep
  simp only [string_data_append]
  have h1 : ("-" : String).data = ['-'] := rfl
  have h2 : (":" : String).data = [':'] := rfl
  have h3 : (String.mk [sep]).data = [sep] := rfl
  simp [List.append_assoc]

/-- Characters of an ISO rendering are digits or delimiters, hence safe
inside a double-quoted literal. -/
theorem isoformat_chars (d : PyDateTime) :
    ∀ c ∈ (isoformat d).data,
      ¬ c = '"' ∧ ¬ c = '\\' ∧ ¬ c = '\n' ∧ ¬ c = '\r' := by
  intro c hc
  unfold isoformat at hc
  rw [isoformatSep_data] at hc
  simp only [List.mem_append, List.mem_cons] at hc
  have hcase : c.isDigit = true ∨ c = '-' ∨ c = 'T' ∨ c = ':' := by
    rcases hc with h | rfl | h | rfl | h | rfl | h | rfl | h | rfl | h
    · exact Or.inl (padDigits_all_digits 4 d.year c h)
    · exact Or.inr (Or.inl rfl)
    · exact Or.inl (padDigits_all_digits 2 d.month c h)
    · exact Or.inr (Or.inl rfl)
    · exact Or.inl (padDigits_all_digits 2 d.day c h)
    · exact Or.inr (Or.inr (Or.inl rfl))
    · exact Or.inl (padDigits_all_digits 2 d.hour c h)
    · exact Or.inr (Or.inr (Or.inr rfl))
    · exact Or.inl (padDigits_all_digits 2 d.minute c h)
    · exact Or.inr (Or.inr (Or.inr rfl))
    · exact Or.inl (padDigits_all_digits 2 d.second c h)
  rcases hcase with h | rfl | rfl | rfl
  · refine ⟨?_, ?_, ?_, ?_⟩ <;> (rintro rfl; exact absurd h (by decide))
  · exact ⟨by decide, by decide, by decide, by decide⟩
  · exact ⟨by decide, by decide, by decide, by decide⟩
  · exact ⟨by decide, by decide, by decide, by decide⟩

/-- The modelled `fromisoformat` inverts `isoformat` on Python-valid
timestamps. -/
theorem parseIso_isoformat (d : PyDateTime) (hv : validDateTime d = true) :
    parseIso (isoformat d).data = some d := by
  simp only [validDateTime, Bool.and_eq_true, decide_eq_true_eq] at hv
  obtain ⟨⟨⟨⟨⟨⟨⟨⟨h1, h2⟩, h3⟩, h4⟩, h5⟩, h6⟩, h7⟩, h8⟩, h9⟩ := hv
  have e4 : (10 : Nat) ^ 4 = 10000 := by norm_num
  have e2 : (10 : Nat) ^ 2 = 100 := by norm_num
  unfold isoformat
  rw [isoformatSep_data]
  unfold parseIso
  rw [parseKDigits_padDigits 4 d.year (by omega) (by omega)]
  simp only [Option.some_bind]
  rw [expectChar_cons]
  simp only [Option.some_bind]
  rw [parseKDigits_padDigits 2 d.month (by omega) (by omega)]
  simp only [Option.some_bind]
  rw [expectChar_cons]
  simp only [Option.some_bind]
  rw [parseKDigits_padDigits 2 d.day (by omega) (by omega)]
  simp only [Option.some_bind]
  rw [expectChar_cons]
  simp only [Option.some_bind]
  rw [parseKDigits_padDigits 2 d.hour (by omega) (by omega)]
  simp only [Option.some_bind]
  rw [expectChar_cons]
  simp only [Option.some_bind]
  rw [parseKDigits_padDigits 2 d.minute (by omega) (by omega)]
  simp only [Option.some_bind]
  rw [expectChar_cons]
  simp only [Option.some_bind]
  rw [show (padDigits 2 d.second).data =
    (padDigits 2 d.second).data ++ ([] : List Char) by simp]
  rw [parseKDigits_padDigits 2 d.second (by omega) (by omega)]
  rfl

/-- A digit head character is none of the parser's dispatch
characters. -/
theorem isDigit_head_cases {c : Char} (h : c.isDigit = true) :
    ¬ c = 'N' ∧ ¬ c = 'T' ∧ ¬ c = 'F' ∧ ¬ c = 'd' ∧ ¬ c = '"' ∧
    ¬ c = '\'' ∧ ¬ c = '[' ∧ ¬ c = '-' := by
  refine ⟨?_, ?_, ?_, ?_, ?_, ?_, ?_, ?_⟩ <;>
    (rintro rfl; exact absurd h (by decide))

/-- The parser inverts `str(int)` (the `as_python` fallback for
integers). -/
theorem parseVal_int (fuel : Nat) (n : Int) :
    parseVal (fuel + 1) (intToDec n).data = some (PyVal.int n, []) := by
  by_cases hn : n < 0
  · have hd : (intToDec n).data = '-' :: natDigits n.natAbs := by
      unfold intToDec
      rw [if_pos hn, string_data_append]
      rfl
    rw [hd]
    simp only [parseVal, if_true]
    rw [parseNumber_int true n.natAbs]
    show some (PyVal.int (-(n.natAbs : Int)), ([] : List Char)) =
      some (PyVal.int n, [])
    rw [show -((n.natAbs : Nat) : Int) = n by omega]
  · have hd : (intToDec n).data = natDigits n.toNat := by
      unfold intToDec
      rw [if_neg hn]
    have hall := natDigitsAux_digits (n.toNat + 1) n.toNat (by omega)
    have hne := natDigitsAux_ne_nil (n.toNat + 1) n.toNat (by omega)
    rw [hd]
    cases hcons : natDigits n.toNat with
    | nil => exact absurd hcons hne
    | cons c cs =>
        have hcdig : c.isDigit = true := by
          apply hall
          show c ∈ natDigitsAux (n.toNat + 1) n.toNat
          rw [show natDigitsAux (n.toNat + 1) n.toNat = c :: cs from hcons]
          exact List.mem_cons_self c cs
        obtain ⟨k1, k2, k3, k4, k5, k6, k7, k8⟩ := isDigit_head_cases hcdig
        simp only [parseVal]
        rw [if_neg k1, if_neg k2, if_neg k3, if_neg k4, if_neg k5, if_neg k6,
          if_neg k7, if_neg k8, if_pos hcdig]
        rw [← hcons, parseNumber_int false n.toNat]
        show some (PyVal.int ((n.toNat : Nat) : Int), ([] : List Char)) =
          some (PyVal.int n, [])
        rw [show ((n.toNat : Nat) : Int) = n by omega]

/-- The parser inverts the naive double-quoted rendering for safe
contents. -/
theorem parseVal_dquote (fuel : Nat) (l rest : List Char)
    (hsafe : ∀ c ∈ l, ¬ c = '"' ∧ ¬ c = '\\' ∧ ¬ c = '\n' ∧ ¬ c = '\r') :
    parseVal (fuel + 1) ('"' :: (l ++ '"' :: rest)) =
      some (PyVal.str (String.mk l), rest) := by
  simp only [parseVal, if_true]
  rw [parseStrBody_safe '"' l rest hsafe]
  rfl

/-- The parser inverts the single-quoted rendering for safe contents. -/
theorem parseVal_squote (fuel : Nat) (l rest : List Char)
    (hsafe : ∀ c ∈ l, ¬ c = '\'' ∧ ¬ c = '\\' ∧ ¬ c = '\n' ∧ ¬ c = '\r') :
    parseVal (fuel + 1) ('\'' :: (l ++ '\'' :: rest)) =
      some (PyVal.str (String.mk l), rest) := by
  simp only [parseVal, if_true]
  rw [parseStrBody_safe '\'' l rest hsafe]
  rfl

/-- The character list behind the emitted `fromisoformat` call. -/
theorem as_python_dt_data (d : PyDateTime) :
    (as_python (PyVal.dt d)).data =
      'd' :: (kwFromIso ++ ('"' :: ((isoformat d).data ++ '"' :: [')']))) := by
  show ("datetime.datetime.fromisoformat(\"" ++ isoformat d ++ "\")").data = _
  rw [string_data_append, string_data_append]
  have h1 : ("datetime.datetime.fromisoformat(\"" : String).data =
      'd' :: (kwFromIso ++ ['"']) := rfl
  have h2 : ("\")" : String).data = ['"', ')'] := rfl
  rw [h1, h2]
  simp

/-- The parser inverts the emitted timestamp literal on Python-valid
timestamps. -/
theorem parseVal_dt (fuel : Nat) (d : PyDateTime)
    (hv : validDateTime d = true) :
    parseVal (fuel + 1) (as_python (PyVal.dt d)).data =
      some (PyVal.dt d, []) := by
  rw [as_python_dt_data]
  simp only [parseVal, reduceIte]
  simp only [dropPfx_self,
    parseStrBody_safe '"' (isoformat d).data [')'] (isoformat_chars d),
    parseIso_isoformat d hv]
  rw [if_neg (by decide), if_neg (by decide), if_neg (by decide)]

/-- Flattening singleton chunks is the identity. -/
theorem flatten_map_singleton :
    ∀ (l : List Char), (l.map (fun c => [c])).flatten = l := by
  intro l
  induction l with
  | nil => rfl
  | cons c cs ih => simp [ih]

/-- The numeric value of each lower-case hexadecimal digit character. -/
theorem hexVal?_hexDigitChar (k : Nat) (h : k < 16) :
    hexVal? (hexDigitChar k) = some k := by
  interval_cases k <;> decide

/-- Decoding a `\xNN` escape: with two hex digits after the `\x`, the
string-body parser produces the encoded character and continues. -/
theorem parseStrBody_hex (q h1 h2 : Char) (a b : Nat) (tail : List Char)
    (hq : ¬ '\\' = q) (hh1 : hexVal? h1 = some a) (hh2 : hexVal? h2 = some b) :
    parseStrBody q ('\\' :: 'x' :: h1 :: h2 :: tail) =
      (parseStrBody q tail).map
        (fun p => (Char.ofNat (16 * a + b) :: p.1, p.2)) := by
  conv_lhs => unfold parseStrBody
  rw [if_neg hq, if_neg (by decide), if_pos rfl]
  simp only [hh1, hh2]

/-- One escaped character of `repr` output decodes back to the original
character. -/
theorem parseStrBody_escape_step (q c : Char) (tail : List Char)
    (hq : q = '\'' ∨ q = '"') :
    parseStrBody q (reprEscapeChar q c ++ tail) =
      (parseStrBody q tail).map (fun p => (c :: p.1, p.2)) := by
  have hbq : ¬ '\\' = q := by rcases hq with rfl | rfl <;> decide
  by_cases h1 : c = '\\'
  · subst h1
    rcases hq with rfl | rfl <;> rfl
  · by_cases h2 : c = q
    · subst h2
      rcases hq with rfl | rfl <;> rfl
    · by_cases h3 : c = '\n'
      · subst h3
        rcases hq with rfl | rfl <;> rfl
      · by_cases h4 : c = '\r'
        · subst h4
          rcases hq with rfl | rfl <;> rfl
        · by_cases h5 : c = '\t'
          · subst h5
            rcases hq with rfl | rfl <;> rfl
          · by_cases h6 : c.toNat < 32 ∨ c.toNat = 127
            · have hrepr : reprEscapeChar q c = ['\\', 'x',
                  hexDigitChar (c.toNat / 16), hexDigitChar (c.toNat % 16)] := by
                unfold reprEscapeChar
                rw [if_neg h1, if_neg h2, if_neg h3, if_neg h4, if_neg h5,
                  if_pos h6]
              have hdiv : c.toNat / 16 < 16 := by omega
              have hmod : c.toNat % 16 < 16 := by omega
              rw [hrepr]
              show parseStrBody q ('\\' :: 'x' :: hexDigitChar (c.toNat / 16) ::
                hexDigitChar (c.toNat % 16) :: tail) = _
              rw [parseStrBody_hex q _ _ (c.toNat / 16) (c.toNat % 16) tail hbq
                (hexVal?_hexDigitChar _ hdiv) (hexVal?_hexDigitChar _ hmod)]
              have hchar : Char.ofNat (16 * (c.toNat / 16) + c.toNat % 16) = c := by
                rw [Nat.div_add_mod]
                exact Char.ofNat_toNat c
              simp only [hchar]
            · have hrepr : reprEscapeChar q c = [c] := by
                unfold reprEscapeChar
                rw [if_neg h1, if_neg h2, if_neg h3, if_neg h4, if_neg h5,
                  if_neg h6]
              rw [hrepr]
              show parseStrBody q (c :: tail) = _
              conv_lhs => unfold parseStrBody
              rw [if_neg h2, if_neg (by simp [h3, h4] : ¬(c = '\n' ∨ c = '\r')),
                if_neg h1]

/-- The quote `repr` chooses is one of the two quote characters. -/
theorem pyQuote_cases (s : String) : pyQuote s = '\'' ∨ pyQuote s = '"' := by
  unfold pyQuote
  by_cases h : s.data.contains '\'' = true ∧ s.data.contains '"' = false
  · rw [if_pos h]
    exact Or.inr rfl
  · rw [if_neg h]
    exact Or.inl rfl

/-- The character list behind a string `repr`. -/
theorem pyStrRepr_data (s : String) :
    (pyStrRepr s).data = pyQuote s ::
      ((s.data.map (reprEscapeChar (pyQuote s))).flatten ++ [pyQuote s]) := rfl

/-- The string-body parser decodes a fully escaped `repr` body, up to
the closing quote. -/
theorem parseStrBody_reprEscape (q : Char) (hq : q = '\'' ∨ q = '"') :
    ∀ (l rest : List Char),
      parseStrBody q ((l.map (reprEscapeChar q)).flatten ++ q :: rest) =
        some (l, rest) := by
  intro l
  induction l with
  | nil =>
      intro rest
      show parseStrBody q (q :: rest) = _
      unfold parseStrBody
      rw [if_pos rfl]
  | cons c cs ih =>
      intro rest
      show parseStrBody q ((reprEscapeChar q c ++
        (cs.map (reprEscapeChar q)).flatten) ++ q :: rest) = _
      rw [List.append_assoc, parseStrBody_escape_step q c _ hq, ih rest]
      rfl

/-- The value parser inverts Python string `repr` for every string,
consuming exactly the quoted text. -/
theorem parseVal_pyStrRepr (fuel : Nat) (s : String) (rest : List Char) :
    parseVal (fuel + 1) ((pyStrRepr s).data ++ rest) =
      some (PyVal.str s, rest) := by
  rcases pyQuote_cases s with hq | hq
  · rw [pyStrRepr_data, hq, List.cons_append, List.append_assoc,
      List.singleton_append]
    simp only [parseVal, if_true]
    rw [parseStrBody_reprEscape '\'' (Or.inl rfl) s.data rest]
    rfl
  · rw [pyStrRepr_data, hq, List.cons_append, List.append_assoc,
      List.singleton_append]
    simp only [parseVal, if_true]
    rw [parseStrBody_reprEscape '"' (Or.inr rfl) s.data rest]
    rfl

/-- `repr` of the elements of a list of string values. -/
theorem pyReprList_map_str :
    ∀ (ss : List String),
      pyReprList (ss.map PyVal.str) = ss.map pyStrRepr := by
  intro ss
  induction ss with
  | nil => rfl
  | cons x t ih =>
      show pyRepr (PyVal.str x) :: pyReprList (t.map PyVal.str) = _
      rw [ih]
      rfl

/-- A list has no more elements than its comma-joined rendering has
characters, plus one. -/
theorem length_le_join (ss : List String) :
    ss.length ≤ (pyJoin ", " (pyReprList (ss.map PyVal.str))).data.length + 1 := by
  rw [pyReprList_map_str]
  induction ss with
  | nil => simp
  | cons x t ih =>
      cases t with
      | nil => simp
      | cons y t2 =>
          show (y :: t2).length + 1 ≤ _
          rw [List.map_cons, List.map_cons]
          show _ ≤ ((pyStrRepr x ++ ", ") ++
            pyJoin ", " (pyStrRepr y :: t2.map pyStrRepr)).data.length + 1
          rw [string_data_append, string_data_append, List.length_append,
            List.length_append]
          rw [List.map_cons] at ih
          have h2 : (", " : String).data.length = 2 := rfl
          omega

/-- The element parser inverts the joined `repr` rendering of a string
list, consuming one unit of fuel per element. -/
theorem parseElems_strings :
    ∀ (xs : List String) (fuel : Nat) (rest : List Char),
      xs.length < fuel →
      parseElems fuel
        ((pyJoin ", " (pyReprList (xs.map PyVal.str))).data ++ ']' :: rest) =
        some (xs.map PyVal.str, rest) := by
  intro xs
  induction xs with
  | nil =>
      intro fuel rest hf
      cases fuel with
      | zero => omega
      | succ f =>
          show parseElems (f + 1) (']' :: rest) = some ([], rest)
          simp only [parseElems, reduceIte]
  | cons x t ih =>
      intro fuel rest hf
      have hqne : ¬ pyQuote x = ']' := by
        rcases pyQuote_cases x with h | h <;> (rw [h]; decide)
      have hcons : ∀ (extra : List Char), (pyStrRepr x).data ++ extra =
          pyQuote x :: (((x.data.map (reprEscapeChar (pyQuote x))).flatten ++
            [pyQuote x]) ++ extra) := by
        intro extra
        rw [pyStrRepr_data]
        rfl
      cases fuel with
      | zero => omega
      | succ f =>
          cases f with
          | zero => simp at hf
          | succ f2 =>
              cases t with
              | nil =>
                  rw [show pyJoin ", " (pyReprList ([x].map PyVal.str)) =
                    pyStrRepr x from rfl]
                  rw [hcons (']' :: rest)]
                  unfold parseElems
                  rw [if_neg hqne]
                  have hpv : parseVal (f2 + 1) (pyQuote x ::
                      (((x.data.map (reprEscapeChar (pyQuote x))).flatten ++
                        [pyQuote x]) ++ ']' :: rest)) =
                      some (PyVal.str x, ']' :: rest) := by
                    rw [← hcons (']' :: rest)]
                    exact parseVal_pyStrRepr f2 x (']' :: rest)
                  rw [hpv]
                  rfl
              | cons y t2 =>
                  have hjoin : (pyJoin ", "
                      (pyReprList ((x :: y :: t2).map PyVal.str))).data =
                      (pyStrRepr x).data ++ ',' :: ' ' ::
                        (pyJoin ", "
                          (pyReprList ((y :: t2).map PyVal.str))).data := by
                    show ((pyStrRepr x ++ ", ") ++
                      pyJoin ", " (pyReprList ((y :: t2).map PyVal.str))).data = _
                    rw [string_data_append, string_data_append,
                      show (", " : String).data = [',', ' '] from rfl]
                    simp [List.append_assoc]
                  rw [show (pyJoin ", "
                      (pyReprList ((x :: y :: t2).map PyVal.str))).data ++
                        ']' :: rest =
                      (pyStrRepr x).data ++ ',' :: ' ' ::
                        ((pyJoin ", "
                          (pyReprList ((y :: t2).map PyVal.str))).data ++
                          ']' :: rest) from by rw [hjoin]; simp]
                  rw [hcons (',' :: ' ' ::
                    ((pyJoin ", " (pyReprList ((y :: t2).map PyVal.str))).data ++
                      ']' :: rest))]
                  unfold parseElems
                  rw [if_neg hqne]
                  have hpv : parseVal (f2 + 1) (pyQuote x ::
                      (((x.data.map (reprEscapeChar (pyQuote x))).flatten ++
                        [pyQuote x]) ++ ',' :: ' ' ::
                        ((pyJoin ", "
                          (pyReprList ((y :: t2).map PyVal.str))).data ++
                          ']' :: rest))) =
                      some (PyVal.str x, ',' :: ' ' ::
                        ((pyJoin ", "
                          (pyReprList ((y :: t2).map PyVal.str))).data ++
                          ']' :: rest)) := by
                    rw [← hcons (',' :: ' ' ::
                      ((pyJoin ", "
                        (pyReprList ((y :: t2).map PyVal.str))).data ++
                        ']' :: rest))]
                    exact parseVal_pyStrRepr f2 x _
                  rw [hpv]
                  show Option.map (fun p => (PyVal.str x :: p.1, p.2))
                      (parseElems (f2 + 1)
                        ((pyJoin ", "
                          (pyReprList ((y :: t2).map PyVal.str))).data ++
                          ']' :: rest)) =
                    some ((x :: y :: t2).map PyVal.str, rest)
                  rw [ih (f2 + 1) rest (by simp at hf ⊢; omega)]
                  rfl

/-- A value list whose elements all match the string constructor is the
image of a list of strings. -/
theorem str_list_shape :
    ∀ (xs : List PyVal),
      (∀ el ∈ xs, (match el with
        | PyVal.str _ => true
        | _ => false) = true) →
      ∃ ss : List String, xs = ss.map PyVal.str := by
  intro xs
  induction xs with
  | nil => intro _; exact ⟨[], rfl⟩
  | cons e t ih =>
      intro h
      obtain ⟨ss, hmap⟩ := ih (fun el hel => h el (List.mem_cons_of_mem e hel))
      have he := h e (List.mem_cons_self e t)
      cases e with
      | str s =>
          refine ⟨s :: ss, ?_⟩
          rw [List.map_cons, ← hmap]
      | none => simp at he
      | bool b => simp at he
      | int n => simp at he
      | float f => simp at he
      | dt d => simp at he
      | list l => simp at he

/-- The digit-run parser consumes a printed digit-value block whole. -/
theorem parseDigitList_digitChars (ds : List Nat) (rest : List Char)
    (hall : ∀ x ∈ ds, x < 10)
    (hrest : match rest with | [] => True | c :: _ => c.isDigit = false) :
    parseDigitList (ds.map digitChar ++ rest) = (ds, rest) := by
  rw [parseDigitList_digits (ds.map digitChar) rest
    (by intro c hc
        obtain ⟨x, hx, rfl⟩ := List.mem_map.mp hc
        exact digitChar_isDigit x (hall x hx))
    hrest]
  rw [List.map_map,
    show ds.map (charDigitVal ∘ digitChar) = ds.map id from
      List.map_congr_left (fun x hx => charDigitVal_digitChar x (hall x hx)),
    List.map_id]

/-- The digit-run parser consumes a decimal rendering whole. -/
theorem parseDigitList_natDigits (m : Nat) :
    parseDigitList (natDigits m) = ((natDigits m).map charDigitVal, []) := by
  have h0 := parseDigitList_digits (natDigits m) []
    (natDigitsAux_digits (m + 1) m (by omega)) trivial
  rw [List.append_nil] at h0
  exact h0

/-- The digit values of a decimal rendering denote the number itself. -/
theorem digitsVal_natDigits (m : Nat) :
    digitsVal ((natDigits m).map charDigitVal) = m := by
  rw [digitsVal_map_charDigitVal]
  show (natDigitsAux (m + 1) m).foldl (fun a c => a * 10 + charDigitVal c) 0 = m
  rw [foldDigits_natDigitsAux (m + 1) m 0 (by omega)]
  simp

/-- The exponent parser inverts the exponent printer. -/
theorem parseExponent_expChars (e : Int) :
    parseExponent (expChars e) = some (e, []) := by
  by_cases he : e < 0
  · by_cases h10 : e.natAbs < 10
    · have hx : expChars e = '-' :: '0' :: digitChar e.natAbs :: [] := by
        unfold expChars
        rw [if_pos he, if_pos h10]
        rfl
      rw [hx]
      have hpd : parseDigitList ('0' :: digitChar e.natAbs :: []) =
          ([0, e.natAbs], []) := by
        have h3 := parseDigitList_digitChars [0, e.natAbs] []
          (by intro x hx2
              simp at hx2
              rcases hx2 with rfl | rfl
              · omega
              · omega)
          trivial
        rw [List.append_nil] at h3
        exact h3
      unfold parseExponent
      simp only [hpd]
      rw [show digitsVal [0, e.natAbs] = e.natAbs from by
        show (0 * 10 + 0) * 10 + e.natAbs = e.natAbs
        omega]
      rw [show -((e.natAbs : Nat) : Int) = e from by omega]
    · have hx : expChars e = '-' :: natDigits e.natAbs := by
        unfold expChars
        rw [if_pos he, if_neg h10]
        rfl
      rw [hx]
      cases hcons : natDigits e.natAbs with
      | nil => exact absurd hcons (natDigitsAux_ne_nil _ _ (by omega))
      | cons c cs =>
          have hpd : parseDigitList (c :: cs) =
              (charDigitVal c :: cs.map charDigitVal, []) := by
            have h4 := parseDigitList_natDigits e.natAbs
            rw [hcons] at h4
            exact h4
          have hval : digitsVal (charDigitVal c :: cs.map charDigitVal) =
              e.natAbs := by
            have h4 := digitsVal_natDigits e.natAbs
            rw [hcons] at h4
            exact h4
          unfold parseExponent
          simp only [hpd]
          rw [hval]
          rw [show -((e.natAbs : Nat) : Int) = e from by omega]
  · by_cases h10 : e.natAbs < 10
    · have hx : expChars e = '+' :: '0' :: digitChar e.natAbs :: [] := by
        unfold expChars
        rw [if_neg he, if_pos h10]
        rfl
      rw [hx]
      have hpd : parseDigitList ('0' :: digitChar e.natAbs :: []) =
          ([0, e.natAbs], []) := by
        have h3 := parseDigitList_digitChars [0, e.natAbs] []
          (by intro x hx2
              simp at hx2
              rcases hx2 with rfl | rfl
              · omega
              · omega)
          trivial
        rw [List.append_nil] at h3
        exact h3
      unfold parseExponent
      simp only [hpd]
      rw [show digitsVal [0, e.natAbs] = e.natAbs from by
        show (0 * 10 + 0) * 10 + e.natAbs = e.natAbs
        omega]
      rw [show ((e.natAbs : Nat) : Int) = e from by omega]
    · have hx : expChars e = '+' :: natDigits e.natAbs := by
        unfold expChars
        rw [if_neg he, if_neg h10]
        rfl
      rw [hx]
      cases hcons : natDigits e.natAbs with
      | nil => exact absurd hcons (natDigitsAux_ne_nil _ _ (by omega))
      | cons c cs =>
          have hpd : parseDigitList (c :: cs) =
              (charDigitVal c :: cs.map charDigitVal, []) := by
            have h4 := parseDigitList_natDigits e.natAbs
            rw [hcons] at h4
            exact h4
          have hval : digitsVal (charDigitVal c :: cs.map charDigitVal) =
              e.natAbs := by
            have h4 := digitsVal_natDigits e.natAbs
            rw [hcons] at h4
            exact h4
          unfold parseExponent
          simp only [hpd]
          rw [hval]
          rw [show ((e.natAbs : Nat) : Int) = e from by omega]

/-- The numeric parser on integer digits, a point, and fraction digits
ending the input: the combined digits at the integer-part exponent,
normalized. -/
theorem parseNumber_point_float (neg : Bool) (cs ip : List Char)
    (I F : List Nat) (hI : parseDigitList cs = (I, '.' :: ip))
    (hIne : I ≠ []) (hF : parseDigitList ip = (F, [])) :
    parseNumber neg cs =
      some (PyVal.float (normFloat neg (I ++ F) (I.length : Int)), []) := by
  unfold parseNumber
  cases I with
  | nil => exact absurd rfl hIne
  | cons i is => simp only [hI, hF]

/-- The numeric parser on integer digits followed by an exponent
suffix ending the input. -/
theorem parseNumber_exp_float (neg : Bool) (cs ep : List Char)
    (I : List Nat) (E : Int) (hI : parseDigitList cs = (I, 'e' :: ep))
    (hIne : I ≠ []) (hE : parseExponent ep = some (E, [])) :
    parseNumber neg cs =
      some (PyVal.float (normFloat neg I ((I.length : Int) + E)), []) := by
  unfold parseNumber
  cases I with
  | nil => exact absurd rfl hIne
  | cons i is => simp only [hI, hE, Option.map_some']

/-- The numeric parser on integer digits, a point, fraction digits and
an exponent suffix ending the input. -/
theorem parseNumber_point_exp_float (neg : Bool) (cs ip ep : List Char)
    (I F : List Nat) (E : Int) (hI : parseDigitList cs = (I, '.' :: ip))
    (hIne : I ≠ []) (hF : parseDigitList ip = (F, 'e' :: ep))
    (hE : parseExponent ep = some (E, [])) :
    parseNumber neg cs =
      some (PyVal.float (normFloat neg (I ++ F) ((I.length : Int) + E)), []) := by
  unfold parseNumber
  cases I with
  | nil => exact absurd rfl hIne
  | cons i is => simp only [hI, hF, hE, Option.map_some']

/-- Dropping leading zeros past a zero block reaches the tail. -/
theorem dropWhile_replicate_append (m : Nat) (X : List Nat) :
    ((List.replicate m 0 ++ X).dropWhile (fun x => x == 0)) =
      X.dropWhile (fun x => x == 0) := by
  induction m with
  | zero => rfl
  | succ n ih =>
      rw [List.replicate_succ, List.cons_append,
        List.dropWhile_cons_of_pos (by simp), ih]

/-- Stripping trailing zeros removes exactly an appended zero block. -/
theorem stripTrailingZeros_append_zeros (l : List Nat) (m : Nat)
    (h : l.getLast? ≠ some 0) :
    stripTrailingZeros (l ++ List.replicate m 0) = l := by
  unfold stripTrailingZeros
  rw [List.reverse_append, List.reverse_replicate, dropWhile_replicate_append]
  cases hrev : l.reverse with
  | nil =>
      have hl : l = [] := by
        have h2 := congrArg List.reverse hrev
        rw [List.reverse_reverse] at h2
        exact h2
      rw [hl]
      rfl
  | cons a as =>
      have ha : ¬ ((fun x => x == 0) a = true) := by
        simp only [beq_iff_eq]
        intro h0
        apply h
        rw [← List.head?_reverse, hrev, h0]
        rfl
      rw [List.dropWhile_cons_of_neg (by exact ha), ← hrev, List.reverse_reverse]

/-- A list whose last entry is nonzero is fixed by trailing-zero
stripping. -/
theorem stripTrailingZeros_of_getLast (l : List Nat)
    (h : l.getLast? ≠ some 0) : stripTrailingZeros l = l := by
  have h0 := stripTrailingZeros_append_zeros l 0 h
  simpa using h0

/-- Leading zeros taken from a zero block followed by a nonzero digit. -/
theorem takeWhile_zeros_append (z d : Nat) (ds : List Nat) (hd : ¬ d = 0) :
    ((List.replicate z 0 ++ d :: ds).takeWhile (fun x => x == 0)) =
      List.replicate z 0 := by
  induction z with
  | zero =>
      show ((d :: ds).takeWhile (fun x => x == 0)) = []
      exact List.takeWhile_cons_of_neg (by simp [hd])
  | succ n ih =>
      rw [List.replicate_succ, List.cons_append,
        List.takeWhile_cons_of_pos (by simp), ih]

/-- Dropping leading zeros from a zero block followed by a nonzero
digit. -/
theorem dropWhile_zeros_append (z d : Nat) (ds : List Nat) (hd : ¬ d = 0) :
    ((List.replicate z 0 ++ d :: ds).dropWhile (fun x => x == 0)) =
      d :: ds := by
  induction z with
  | zero =>
      show ((d :: ds).dropWhile (fun x => x == 0)) = d :: ds
      exact List.dropWhile_cons_of_neg (by simp [hd])
  | succ n ih =>
      rw [List.replicate_succ, List.cons_append,
        List.dropWhile_cons_of_pos (by simp), ih]

/-- Normalization fixes a canonical digit list (nonzero head and
last). -/
theorem normFloat_canonical (neg : Bool) (d : Nat) (ds : List Nat)
    (decpt : Int) (hd : ¬ d = 0) (hlast : (d :: ds).getLast? ≠ some 0) :
    normFloat neg (d :: ds) decpt = PyFloat.finite neg (d :: ds) decpt := by
  have htake : ((d :: ds).takeWhile (fun x => x == 0)) = [] :=
    List.takeWhile_cons_of_neg (by simp [hd])
  have hdrop : ((d :: ds).dropWhile (fun x => x == 0)) = d :: ds :=
    List.dropWhile_cons_of_neg (by simp [hd])
  simp only [normFloat, htake, hdrop, stripTrailingZeros_of_getLast _ hlast]
  rw [if_neg (by simp)]
  simp

/-- Normalization of a zero-prefixed digit list lowers the exponent by
the prefix length. -/
theorem normFloat_lead_zeros (neg : Bool) (z d : Nat) (ds : List Nat)
    (e : Int) (hd : ¬ d = 0) (hlast : (d :: ds).getLast? ≠ some 0) :
    normFloat neg (List.replicate z 0 ++ d :: ds) e =
      PyFloat.finite neg (d :: ds) (e - z) := by
  simp only [normFloat, takeWhile_zeros_append z d ds hd,
    dropWhile_zeros_append z d ds hd, stripTrailingZeros_of_getLast _ hlast,
    List.length_replicate]
  rw [if_neg (by simp)]

/-- Normalization of a zero-suffixed digit list keeps the exponent. -/
theorem normFloat_trail_zeros (neg : Bool) (d : Nat) (ds : List Nat)
    (m : Nat) (e : Int) (hd : ¬ d = 0)
    (hlast : (d :: ds).getLast? ≠ some 0) :
    normFloat neg ((d :: ds) ++ List.replicate m 0) e =
      PyFloat.finite neg (d :: ds) e := by
  have htake : (((d :: ds) ++ List.replicate m 0).takeWhile
      (fun x => x == 0)) = [] := by
    rw [List.cons_append]
    exact List.takeWhile_cons_of_neg (by simp [hd])
  have hdrop : (((d :: ds) ++ List.replicate m 0).dropWhile
      (fun x => x == 0)) = (d :: ds) ++ List.replicate m 0 := by
    rw [List.cons_append]
    rw [List.dropWhile_cons_of_neg (by simp [hd])]
  simp only [normFloat, htake, hdrop,
    stripTrailingZeros_append_zeros (d :: ds) m hlast]
  rw [if_neg (by simp)]
  simp

/-- The components of a well-formed finite decomposition. -/
theorem wellFormedFloat_finite_facts (neg : Bool) (digits : List Nat)
    (decpt : Int)
    (hwf : wellFormedFloat (PyFloat.finite neg digits decpt) = true) :
    digits ≠ [] ∧ (∀ x ∈ digits, x < 10) ∧
      digits.head? ≠ some 0 ∧ digits.getLast? ≠ some 0 := by
  have h := hwf
  simp only [wellFormedFloat, Bool.and_eq_true, Bool.not_eq_true'] at h
  obtain ⟨⟨⟨h1, h2⟩, h3⟩, h4⟩ := h
  refine ⟨?_, ?_, ?_, ?_⟩
  · intro h0
    subst h0
    simp at h1
  · intro x hx
    simpa using (List.all_eq_true.mp h2) x hx
  · intro h0
    rw [h0] at h3
    exact absurd h3 (by decide)
  · intro h0
    rw [h0] at h4
    exact absurd h4 (by decide)

/-- The numeric parser inverts `formatShort` on well-formed finite
decompositions, in all four formatting regimes. -/
theorem parseNumber_formatShort (neg : Bool) (digits : List Nat)
    (decpt : Int)
    (hwf : wellFormedFloat (PyFloat.finite neg digits decpt) = true) :
    parseNumber neg (formatShort digits decpt) =
      some (PyVal.float (PyFloat.finite neg digits decpt), []) := by
  obtain ⟨hne, hall, hhead, hlast⟩ :=
    wellFormedFloat_finite_facts neg digits decpt hwf
  cases digits with
  | nil => exact absurd rfl hne
  | cons d ds =>
      have hd0 : ¬ d = 0 := by
        intro h0
        apply hhead
        rw [h0]
        rfl
      by_cases hsci : decpt ≤ -4 ∨ decpt > 16
      · cases ds with
        | nil =>
            have hfs : formatShort [d] decpt =
                digitChar d :: 'e' :: expChars (decpt - 1) := by
              unfold formatShort
              rw [if_pos hsci]
              rfl
            rw [hfs]
            have hI : parseDigitList
                (digitChar d :: 'e' :: expChars (decpt - 1)) =
                ([d], 'e' :: expChars (decpt - 1)) := by
              have h3 := parseDigitList_digitChars [d]
                ('e' :: expChars (decpt - 1))
                (by intro x hx
                    simp at hx
                    subst hx
                    exact hall _ (List.mem_cons_self _ _))
                (by show ('e'.isDigit = false); decide)
              exact h3
            rw [parseNumber_exp_float neg _ (expChars (decpt - 1)) [d]
              (decpt - 1) hI (by simp) (parseExponent_expChars (decpt - 1))]
            rw [normFloat_canonical neg d [] _ hd0 hlast]
            exact congrArg (fun x : Int =>
              some (PyVal.float (PyFloat.finite neg [d] x), ([] : List Char)))
              (by rw [List.length_singleton]; omega)
        | cons e2 ds2 =>
            have hfs : formatShort (d :: e2 :: ds2) decpt =
                digitChar d :: '.' :: ((e2 :: ds2).map digitChar ++
                  'e' :: expChars (decpt - 1)) := by
              unfold formatShort
              rw [if_pos hsci]
              rfl
            rw [hfs]
            have hI : parseDigitList (digitChar d :: '.' ::
                ((e2 :: ds2).map digitChar ++ 'e' :: expChars (decpt - 1))) =
                ([d], '.' :: ((e2 :: ds2).map digitChar ++
                  'e' :: expChars (decpt - 1))) := by
              have h3 := parseDigitList_digitChars [d]
                ('.' :: ((e2 :: ds2).map digitChar ++
                  'e' :: expChars (decpt - 1)))
                (by intro x hx
                    simp at hx
                    subst hx
                    exact hall _ (List.mem_cons_self _ _))
                (by show ('.'.isDigit = false); decide)
              exact h3
            have hF : parseDigitList ((e2 :: ds2).map digitChar ++
                'e' :: expChars (decpt - 1)) =
                (e2 :: ds2, 'e' :: expChars (decpt - 1)) :=
              parseDigitList_digitChars (e2 :: ds2)
                ('e' :: expChars (decpt - 1))
                (fun x hx => hall x (List.mem_cons_of_mem d hx))
                (by show ('e'.isDigit = false); decide)
            rw [parseNumber_point_exp_float neg _ _ (expChars (decpt - 1))
              [d] (e2 :: ds2) (decpt - 1) hI (by simp) hF
              (parseExponent_expChars (decpt - 1))]
            rw [List.singleton_append]
            rw [normFloat_canonical neg d (e2 :: ds2) _ hd0 hlast]
            exact congrArg (fun x : Int =>
              some (PyVal.float (PyFloat.finite neg (d :: e2 :: ds2) x),
                ([] : List Char)))
              (by rw [List.length_singleton]; omega)
      · by_cases hdec : decpt ≤ 0
        · have hfs : formatShort (d :: ds) decpt =
              '0' :: '.' :: (List.replicate (-decpt).toNat '0' ++
                (d :: ds).map digitChar) := by
            unfold formatShort
            rw [if_neg hsci, if_pos hdec]
          rw [hfs]
          have hI : parseDigitList ('0' :: '.' ::
              (List.replicate (-decpt).toNat '0' ++
                (d :: ds).map digitChar)) =
              ([0], '.' :: (List.replicate (-decpt).toNat '0' ++
                (d :: ds).map digitChar)) := rfl
          have hF : parseDigitList (List.replicate (-decpt).toNat '0' ++
              (d :: ds).map digitChar) =
              (List.replicate (-decpt).toNat 0 ++ d :: ds, []) := by
            have h3 := parseDigitList_digitChars
              (List.replicate (-decpt).toNat 0 ++ d :: ds) []
              (by intro x hx
                  rcases List.mem_append.mp hx with hx | hx
                  · rw [List.eq_of_mem_replicate hx]
                    omega
                  · exact hall x hx)
              trivial
            rw [List.append_nil, List.map_append, List.map_replicate] at h3
            exact h3
          rw [parseNumber_point_float neg _ _ [0]
            (List.replicate (-decpt).toNat 0 ++ d :: ds) hI (by simp) hF]
          rw [show ([0] : List Nat) ++
              (List.replicate (-decpt).toNat 0 ++ d :: ds) =
              List.replicate ((-decpt).toNat + 1) 0 ++ d :: ds from by
            rw [List.replicate_succ]
            rfl]
          rw [normFloat_lead_zeros neg ((-decpt).toNat + 1) d ds _ hd0 hlast]
          exact congrArg (fun x : Int =>
            some (PyVal.float (PyFloat.finite neg (d :: ds) x),
              ([] : List Char)))
            (by rw [List.length_singleton]; omega)
        · by_cases hge : ((d :: ds).length : Int) ≤ decpt
          · have hfs : formatShort (d :: ds) decpt =
                (d :: ds).map digitChar ++
                  (List.replicate (decpt - (d :: ds).length).toNat '0' ++
                    ['.', '0']) := by
              unfold formatShort
              rw [if_neg hsci, if_neg hdec, if_pos hge]
            rw [hfs]
            have hI : parseDigitList ((d :: ds).map digitChar ++
                (List.replicate (decpt - (d :: ds).length).toNat '0' ++
                  ['.', '0'])) =
                ((d :: ds) ++
                  List.replicate (decpt - (d :: ds).length).toNat 0,
                  '.' :: ['0']) := by
              have h3 := parseDigitList_digitChars
                ((d :: ds) ++
                  List.replicate (decpt - (d :: ds).length).toNat 0)
                ('.' :: ['0'])
                (by intro x hx
                    rcases List.mem_append.mp hx with hx | hx
                    · exact hall x hx
                    · rw [List.eq_of_mem_replicate hx]
                      omega)
                (by show ('.'.isDigit = false); decide)
              rw [List.map_append, List.map_replicate, List.append_assoc] at h3
              exact h3
            have hF : parseDigitList ['0'] = ([0], []) := rfl
            rw [parseNumber_point_float neg _ _
              ((d :: ds) ++ List.replicate (decpt - (d :: ds).length).toNat 0)
              [0] hI (by simp) hF]
            rw [show (((d :: ds) ++
                List.replicate (decpt - (d :: ds).length).toNat 0) ++ [0]) =
                (d :: ds) ++
                  List.replicate ((decpt - (d :: ds).length).toNat + 1) 0 from by
              rw [List.append_assoc, List.replicate_succ']]
            rw [normFloat_trail_zeros neg d ds
              ((decpt - (d :: ds).length).toNat + 1) _ hd0 hlast]
            exact congrArg (fun x : Int =>
              some (PyVal.float (PyFloat.finite neg (d :: ds) x),
                ([] : List Char)))
              (by rw [List.length_append, List.length_replicate]
                  push_cast
                  omega)
          · have hfs : formatShort (d :: ds) decpt =
                ((d :: ds).take decpt.toNat).map digitChar ++
                  '.' :: ((d :: ds).drop decpt.toNat).map digitChar := by
              unfold formatShort
              rw [if_neg hsci, if_neg hdec, if_neg hge]
            rw [hfs]
            have hI : parseDigitList
                (((d :: ds).take decpt.toNat).map digitChar ++
                  '.' :: ((d :: ds).drop decpt.toNat).map digitChar) =
                ((d :: ds).take decpt.toNat,
                  '.' :: ((d :: ds).drop decpt.toNat).map digitChar) :=
              parseDigitList_digitChars _ _
                (fun x hx => hall x (List.take_subset _ _ hx))
                (by show ('.'.isDigit = false); decide)
            have hF : parseDigitList
                (((d :: ds).drop decpt.toNat).map digitChar) =
                ((d :: ds).drop decpt.toNat, []) := by
              have h3 := parseDigitList_digitChars ((d :: ds).drop decpt.toNat)
                [] (fun x hx => hall x (List.drop_subset _ _ hx)) trivial
              rw [List.append_nil] at h3
              exact h3
            have hne2 : (d :: ds).take decpt.toNat ≠ [] := by
              simp [List.take_eq_nil_iff]
              omega
            rw [parseNumber_point_float neg _ _ ((d :: ds).take decpt.toNat)
              ((d :: ds).drop decpt.toNat) hI hne2 hF]
            rw [List.take_append_drop]
            rw [normFloat_canonical neg d ds _ hd0 hlast]
            exact congrArg (fun x : Int =>
              some (PyVal.float (PyFloat.finite neg (d :: ds) x),
                ([] : List Char)))
              (by rw [List.length_take, Nat.min_eq_left (by omega)]
                  omega)

/-- The first character of a finite rendering is a digit. -/
theorem formatShort_head_digit (digits : List Nat) (decpt : Int)
    (hne : digits ≠ []) (hall : ∀ x ∈ digits, x < 10) :
    (match formatShort digits decpt with
      | [] => False
      | c :: _ => c.isDigit = true) := by
  cases digits with
  | nil => exact absurd rfl hne
  | cons d ds =>
      have hd10 : d < 10 := hall d (List.mem_cons_self d ds)
      unfold formatShort
      by_cases h1 : decpt ≤ -4 ∨ decpt > 16
      · rw [if_pos h1]
        exact digitChar_isDigit d hd10
      · rw [if_neg h1]
        by_cases h2 : decpt ≤ 0
        · rw [if_pos h2]
          exact rfl
        · rw [if_neg h2]
          by_cases h3 : ((d :: ds).length : Int) ≤ decpt
          · rw [if_pos h3]
            exact digitChar_isDigit d hd10
          · rw [if_neg h3]
            obtain ⟨q, hq⟩ : ∃ q, decpt.toNat = q + 1 :=
              ⟨decpt.toNat - 1, by omega⟩
            rw [hq]
            exact digitChar_isDigit d hd10

/-- The value parser inverts the float formatter on well-formed finite
decompositions and signed zeros. -/
theorem parseVal_float (fuel : Nat) (f : PyFloat)
    (hwf : wellFormedFloat f = true) :
    parseVal (fuel + 1) (pyFloatStr f).data = some (PyVal.float f, []) := by
  cases f with
  | nan => simp [wellFormedFloat] at hwf
  | inf neg => simp [wellFormedFloat] at hwf
  | zero neg =>
      cases neg with
      | false => rfl
      | true => rfl
  | finite neg digits decpt =>
      obtain ⟨hne, hall, hhead, hlast⟩ :=
        wellFormedFloat_finite_facts neg digits decpt hwf
      cases neg with
      | true =>
          rw [show (pyFloatStr (PyFloat.finite true digits decpt)).data =
              '-' :: formatShort digits decpt from by
            show ("-" ++ String.mk (formatShort digits decpt)).data = _
            rw [string_data_append]
            rfl]
          simp only [parseVal, if_true]
          exact parseNumber_formatShort true digits decpt hwf
      | false =>
          rw [show (pyFloatStr (PyFloat.finite false digits decpt)).data =
            formatShort digits decpt from rfl]
          cases hcons : formatShort digits decpt with
          | nil =>
              have h0 := formatShort_head_digit digits decpt hne hall
              rw [hcons] at h0
              exact (h0 : False).elim
          | cons c cs =>
              have h0 := formatShort_head_digit digits decpt hne hall
              rw [hcons] at h0
              have hcdig : c.isDigit = true := h0
              obtain ⟨k1, k2, k3, k4, k5, k6, k7, k8⟩ :=
                isDigit_head_cases hcdig
              simp only [parseVal]
              rw [if_neg k1, if_neg k2, if_neg k3, if_neg k4, if_neg k5,
                if_neg k6, if_neg k7, if_neg k8, if_pos hcdig]
              rw [← hcons]
              exact parseNumber_formatShort false digits decpt hwf

/-- C7 (amended): a timestamp is rendered as a `fromisoformat`
constructor call over its ISO-8601 representation, and for every
boolean, integer, finite float, Python-valid timestamp, string free of
double quotes, backslashes and line breaks, and homogeneous list of
strings (with no restriction on the strings — the list path escapes
through `repr`), evaluating the literal `as_python` produces yields a
value equal to the original.  (The bare-string restriction is forced by
`as_python_roundtrip_cex`: `as_python` quotes top-level strings without
escaping.  The finiteness restriction is forced by the same
counterexample's `inf` conjunct: infinities and NaN render as
`inf`/`nan`, which are not literals.) -/
theorem as_python_roundtrip :
    (∀ d : PyDateTime, as_python (PyVal.dt d) =
      "datetime.datetime.fromisoformat(\"" ++ isoformat d ++ "\")") ∧
    (∀ v : PyVal, safeVal v = true → evalLiteral (as_python v) = some v) := by
  refine ⟨fun d => rfl, ?_⟩
  intro v hs
  cases v with
  | none => simp [safeVal] at hs
  | bool b => cases b <;> rfl
  | int n =>
      show evalLiteral (intToDec n) = some (PyVal.int n)
      unfold evalLiteral
      rw [parseVal_int]
  | float f =>
      show evalLiteral (pyFloatStr f) = some (PyVal.float f)
      unfold evalLiteral
      rw [parseVal_float _ f (by simpa [safeVal] using hs)]
  | str s =>
      have hall : ∀ c ∈ s.data,
          ¬ c = '"' ∧ ¬ c = '\\' ∧ ¬ c = '\n' ∧ ¬ c = '\r' := by
        intro c hc
        have hcc := (List.all_eq_true.mp (by simpa [safeVal] using hs)) c hc
        simp only [safeBareChar, Bool.not_eq_true', Bool.or_eq_false_iff,
          beq_eq_false_iff_ne, ne_eq] at hcc
        exact ⟨hcc.1.1.1, hcc.1.1.2, hcc.1.2, hcc.2⟩
      have hd : (as_python (PyVal.str s)).data =
          '"' :: (s.data ++ '"' :: []) := by
        show ("\"" ++ s ++ "\"").data = _
        rw [string_data_append, string_data_append]
        simp
      unfold evalLiteral
      rw [hd, parseVal_dquote _ s.data [] hall]
  | dt d =>
      unfold evalLiteral
      rw [parseVal_dt _ d (by simpa [safeVal] using hs)]
  | list xs =>
      have hs' : ∀ el ∈ xs, (match el with
          | PyVal.str _ => true
          | _ => false) = true := by
        simpa [safeVal, List.all_eq_true] using hs
      obtain ⟨ss, rfl⟩ := str_list_shape xs hs'
      have hd : (as_python (PyVal.list (ss.map PyVal.str))).data =
          '[' :: ((pyJoin ", " (pyReprList (ss.map PyVal.str))).data ++
            ']' :: []) := by
        show ("[" ++ pyJoin ", " (pyReprList (ss.map PyVal.str)) ++ "]").data = _
        rw [string_data_append, string_data_append]
        simp
      have hbound : ss.length <
          ('[' :: ((pyJoin ", " (pyReprList (ss.map PyVal.str))).data ++
            ']' :: [])).length := by
        have := length_le_join ss
        simp only [List.length_cons, List.length_append]
        omega
      unfold evalLiteral
      rw [hd]
      simp only [parseVal, reduceIte]
      rw [parseElems_strings ss _ [] hbound]
      rfl

/-- C7 counterexample: the string consisting of `a`, a double quote and
`b` — the formatter emits `"a"b"` (no escaping), which is not a literal
at all, so evaluation yields nothing; and the positive infinite float —
`str` renders it as `inf`, a bare name rather than a literal, so
evaluation fails for it as well. -/
theorem as_python_roundtrip_cex :
    as_python (PyVal.str "a\"b") = "\"a\"b\"" ∧
    evalLiteral (as_python (PyVal.str "a\"b")) = Option.none ∧
    Option.none ≠ some (PyVal.str "a\"b") ∧
    as_python (PyVal.float (PyFloat.inf false)) = "inf" ∧
    evalLiteral (as_python (PyVal.float (PyFloat.inf false))) = Option.none ∧
    Option.none ≠ some (PyVal.float (PyFloat.inf false)) :=
  ⟨rfl, rfl, fun h => Option.noConfusion h, rfl, rfl,
   fun h => Option.noConfusion h⟩

/-- C7 witness: the round-trip theorem applied to a concrete string
list whose second element contains a double quote, a concrete finite
float, and a concrete timestamp. -/
theorem as_python_roundtrip_witness :
    safeVal (PyVal.list [PyVal.str "alice", PyVal.str "a\"b"]) = true ∧
    evalLiteral (as_python (PyVal.list [PyVal.str "alice", PyVal.str "a\"b"])) =
      some (PyVal.list [PyVal.str "alice", PyVal.str "a\"b"]) ∧
    safeVal (PyVal.float (PyFloat.finite false [3, 1, 4] 1)) = true ∧
    evalLiteral (as_python (PyVal.float (PyFloat.finite false [3, 1, 4] 1))) =
      some (PyVal.float (PyFloat.finite false [3, 1, 4] 1)) ∧
    safeVal (PyVal.dt ⟨2023, 5, 17, 10, 30, 5⟩) = true ∧
    evalLiteral (as_python (PyVal.dt ⟨2023, 5, 17, 10, 30, 5⟩)) =
      some (PyVal.dt ⟨2023, 5, 17, 10, 30, 5⟩) :=
  ⟨by decide, as_python_roundtrip.2 _ (by decide), by decide,
   as_python_roundtrip.2 _ (by decide), by decide,
   as_python_roundtrip.2 _ (by decide)⟩

/-- C9: for every string, `as_python` returns exactly one double quote,
the string's characters unchanged, and a closing double quote, with no
escaping; consequently for the string `say "hi"` (which contains double
quotes) the produced text does not evaluate to the original string — it
is not a valid literal at all. -/
theorem as_python_str_unescaped :
    (∀ s : String, as_python (PyVal.str s) = "\"" ++ s ++ "\"") ∧
    evalLiteral (as_python (PyVal.str "say \"hi\"")) = Option.none ∧
    Option.none ≠ some (PyVal.str "say \"hi\"") :=
  ⟨fun _ => rfl, rfl, fun h => Option.noConfusion h⟩

/-- Membership after a `set.add`. -/
theorem setAdd_mem (s : List String) (x y : String) :
    y ∈ setAdd s x ↔ y ∈ s ∨ y = x := by
  unfold setAdd
  by_cases h : s.contains x = true
  · rw [if_pos h]
    have hx : x ∈ s := by simpa using h
    constructor
    · exact fun hy => Or.inl hy
    · rintro (hy | rfl)
      · exact hy
      · exact hx
  · rw [if_neg h]
    simp [List.mem_append]

/-- One `importStep` adds exactly the contribution `importOf` assigns to
the collected type. -/
theorem importStep_mem (imps : List String) (cls : PyType) (y : String) :
    y ∈ importStep imps cls ↔ y ∈ imps ∨ importOf cls = some y := by
  unfold importStep importOf
  by_cases h1 : pyIsType cls = true ∧ pyIsDatetimeSub cls = true
  · rw [if_pos h1, if_pos h1, setAdd_mem]
    simp [eq_comm]
  · rw [if_neg h1, if_neg h1]
    by_cases h2 : pyModule cls ≠ "builtins" ∧ pyIsUnion cls = false
    · rw [if_pos h2, if_pos h2, setAdd_mem]
      simp [eq_comm]
    · rw [if_neg h2, if_neg h2]
      simp

/-- Folding `importStep` over a type list collects exactly the per-type
contributions. -/
theorem foldl_importStep_mem (y : String) :
    ∀ (ts : List PyType) (init : List String),
      y ∈ ts.foldl importStep init ↔
        y ∈ init ∨ ∃ t ∈ ts, importOf t = some y := by
  intro ts
  induction ts with
  | nil => intro init; simp
  | cons t ts ih =>
      intro init
      rw [List.foldl_cons, ih, importStep_mem]
      constructor
      · rintro ((hy | hio) | ⟨t2, ht2, hio⟩)
        · exact Or.inl hy
        · exact Or.inr ⟨t, List.mem_cons_self t ts, hio⟩
        · exact Or.inr ⟨t2, List.mem_cons_of_mem t ht2, hio⟩
      · rintro (hy | ⟨t2, ht2, hio⟩)
        · exact Or.inl (Or.inl hy)
        · rcases List.mem_cons.mp ht2 with rfl | h2
          · exact Or.inl (Or.inr hio)
          · exact Or.inr ⟨t2, h2, hio⟩

/-- The import set collects exactly the contributions of the types
recursively collected from every property. -/
theorem mem_get_imports_iff (props : List Property) (y : String) :
    y ∈ get_imports_from_properties props ↔
      ∃ p ∈ props, ∃ t ∈ types_in p.property_type, importOf t = some y := by
  unfold get_imports_from_properties
  suffices h : ∀ (ps : List Property) (init : List String),
      y ∈ ps.foldl
          (fun imports property_item =>
            (types_in property_item.property_type).foldl importStep imports)
          init ↔
        y ∈ init ∨ ∃ p ∈ ps, ∃ t ∈ types_in p.property_type,
          importOf t = some y by
    rw [h]; simp
  intro ps
  induction ps with
  | nil => intro init; simp
  | cons p ps ih =>
      intro init
      rw [List.foldl_cons, ih, foldl_importStep_mem]
      constructor
      · rintro ((hy | ⟨t, ht, hio⟩) | ⟨p2, hp2, t, ht, hio⟩)
        · exact Or.inl hy
        · exact Or.inr ⟨p, List.mem_cons_self p ps, t, ht, hio⟩
        · exact Or.inr ⟨p2, List.mem_cons_of_mem p hp2, t, ht, hio⟩
      · rintro (hy | ⟨p2, hp2, t, ht, hio⟩)
        · exact Or.inl (Or.inl hy)
        · rcases List.mem_cons.mp hp2 with rfl | h2
          · exact Or.inl (Or.inr ⟨t, ht, hio⟩)
          · exact Or.inr ⟨p2, h2, t, ht, hio⟩

/-- C8 (amended): a module is imported exactly when it is `datetime` and
some collected type is a datetime class, or it is the defining module of
some collected non-union type that is neither builtin nor a datetime
class.  (The claim's version — every non-union non-builtin collected
type contributes its module — fails for datetime subclasses from foreign
modules: the `elif` makes them contribute only `datetime`, see
`get_imports_freezegun_cex`.) -/
theorem get_imports_from_properties_characterization :
    ∀ (props : List Property) (y : String),
      y ∈ get_imports_from_properties props ↔
        ((y = "datetime" ∧ ∃ p ∈ props, ∃ t ∈ types_in p.property_type,
            pyIsType t = true ∧ pyIsDatetimeSub t = true) ∨
         (∃ p ∈ props, ∃ t ∈ types_in p.property_type,
            ¬ (pyIsType t = true ∧ pyIsDatetimeSub t = true) ∧
            pyModule t ≠ "builtins" ∧ pyIsUnion t = false ∧
            y = pyModule t)) := by
  intro props y
  rw [mem_get_imports_iff]
  constructor
  · rintro ⟨p, hp, t, ht, hio⟩
    unfold importOf at hio
    by_cases h1 : pyIsType t = true ∧ pyIsDatetimeSub t = true
    · rw [if_pos h1] at hio
      have hy : y = "datetime" := by
        simpa [eq_comm] using hio
      exact Or.inl ⟨hy, p, hp, t, ht, h1⟩
    · rw [if_neg h1] at hio
      by_cases h2 : pyModule t ≠ "builtins" ∧ pyIsUnion t = false
      · rw [if_pos h2] at hio
        have hy : y = pyModule t := by simpa [eq_comm] using hio
        exact Or.inr ⟨p, hp, t, ht, h1, h2.1, h2.2, hy⟩
      · rw [if_neg h2] at hio
        exact absurd hio (by simp)
  · rintro (⟨rfl, p, hp, t, ht, h1⟩ | ⟨p, hp, t, ht, h1, h2, h3, rfl⟩)
    · exact ⟨p, hp, t, ht, by unfold importOf; rw [if_pos h1]⟩
    · exact ⟨p, hp, t, ht, by unfold importOf; rw [if_neg h1, if_pos ⟨h2, h3⟩]⟩

/-- C8 counterexample: one property whose type is a datetime subclass
defined in module `freezegun.api` (the situation the source's
"workaround for freezegun" comment anticipates).  The type is collected,
is not a union and its module is not `builtins`, so the claim demands
`freezegun.api` in the import set; the code computes `["datetime"]`
only. -/
theorem get_imports_freezegun_cex :
    types_in (PyType.cls "freezegun.api" true []) =
      [PyType.cls "freezegun.api" true []] ∧
    pyModule (PyType.cls "freezegun.api" true []) ≠ "builtins" ∧
    pyIsUnion (PyType.cls "freezegun.api" true []) = false ∧
    get_imports_from_properties
        [⟨⟨⟨"git"⟩, "commit-timestamp", "git_commit_timestamp", []⟩,
          PyVal.none, PyType.cls "freezegun.api" true [], []⟩] =
      ["datetime"] ∧
    "freezegun.api" ∉ get_imports_from_properties
        [⟨⟨⟨"git"⟩, "commit-timestamp", "git_commit_timestamp", []⟩,
          PyVal.none, PyType.cls "freezegun.api" true [], []⟩] :=
  ⟨rfl, by decide, rfl, rfl, by decide⟩

end PackageInfo
